import Mathlib

/-!
The hash-linked ledger of `blockchain/core/blockchain.go`.

A shallow embedding of the Go package `core` (blocks, the pending pool, the
nonce search and the chain validator) together with the two library
primitives it calls, `crypto/sha256` and `encoding/hex`.

Go values are modelled as follows.

* `string` is an immutable byte sequence: `GoString := List UInt8`.
* `int64` / `int` are integers (`Int`); the one place where the program does
  arithmetic on them (`block.Nonce++`) wraps explicitly modulo `2^64`.
* `float64` is only ever copied by this package, never computed with; it is
  carried as its IEEE-754 bit pattern.
* `[]*Block` is a list of blocks (no nil entries, no aliasing).
* `time.Now()` is an input of the operations that read the clock.
-/

namespace Core

/-! ## Strings and the integer-to-string conversion -/

/-- A Go `string`: a sequence of bytes. -/
abbrev GoString := List UInt8

/-- An IEEE-754 binary64 value, carried as its bit pattern. -/
abbrev Float64 := UInt64

/-- The low eight bits of a natural number, as Go's `byte(x)` conversion. -/
def byte (n : Nat) : UInt8 := UInt8.ofNat (n % 256)

/-- The rune `utf8.RuneError`, U+FFFD. -/
def runeError : Nat := 0xFFFD

/-- The three-byte encoding used by `encoderune` for runes up to `0xFFFF`. -/
def encode3 (r : Nat) : GoString :=
  [byte (0xE0 ||| (r >>> 12)), byte (0x80 ||| ((r >>> 6) &&& 0x3F)), byte (0x80 ||| (r &&& 0x3F))]

/-- Go's `string(v)` for an integer `v` (runtime `intstring` followed by
`encoderune`): the UTF-8 encoding of the code point `v`, and the encoding of
U+FFFD when `v` is negative, above `0x10FFFF` or a surrogate. -/
def intstring (v : Int) : GoString :=
  if v < 0 then encode3 runeError
  else
    let i := v.toNat
    if i ≤ 0x7F then [byte i]
    else if i ≤ 0x7FF then [byte (0xC0 ||| (i >>> 6)), byte (0x80 ||| (i &&& 0x3F))]
    else if i > 0x10FFFF ∨ (0xD800 ≤ i ∧ i ≤ 0xDFFF) then encode3 runeError
    else if i ≤ 0xFFFF then encode3 i
    else [byte (0xF0 ||| (i >>> 18)), byte (0x80 ||| ((i >>> 12) &&& 0x3F)),
          byte (0x80 ||| ((i >>> 6) &&& 0x3F)), byte (0x80 ||| (i &&& 0x3F))]

/-- A string literal of the Go source, as its UTF-8 bytes. -/
def lit (s : String) : GoString :=
  s.toList.flatMap fun c => intstring (Int.ofNat c.toNat)

/-! ## `encoding/hex` -/

/-- The digit table of `encoding/hex`: the bytes of `"0123456789abcdef"`. -/
def hextable : List UInt8 :=
  [48, 49, 50, 51, 52, 53, 54, 55, 56, 57, 97, 98, 99, 100, 101, 102]

/-- The two hexadecimal digits of one byte: `hextable[v>>4]`, `hextable[v&0x0f]`. -/
def hexByte (v : UInt8) : GoString :=
  [hextable.getD (v.toNat / 16) 0, hextable.getD (v.toNat % 16) 0]

/-- Go's `hex.EncodeToString`. -/
def hexEncodeToString (src : List UInt8) : GoString :=
  src.flatMap hexByte

/-! ## `crypto/sha256` (FIPS 180-4) -/

namespace SHA256

/-- Addition of 32-bit words. -/
def add32 (x y : Nat) : Nat := (x + y) % 2 ^ 32

/-- Rotation of a 32-bit word to the right. -/
def rotr (x n : Nat) : Nat := ((x >>> n) ||| (x <<< (32 - n))) % 2 ^ 32

/-- Bitwise complement of a 32-bit word. -/
def not32 (x : Nat) : Nat := (2 ^ 32 - 1) ^^^ (x % 2 ^ 32)

def ch (x y z : Nat) : Nat := (x &&& y) ^^^ (not32 x &&& z)

def maj (x y z : Nat) : Nat := (x &&& y) ^^^ (x &&& z) ^^^ (y &&& z)

def bigSigma0 (x : Nat) : Nat := rotr x 2 ^^^ rotr x 13 ^^^ rotr x 22

def bigSigma1 (x : Nat) : Nat := rotr x 6 ^^^ rotr x 11 ^^^ rotr x 25

def smallSigma0 (x : Nat) : Nat := rotr x 7 ^^^ rotr x 18 ^^^ (x >>> 3)

def smallSigma1 (x : Nat) : Nat := rotr x 17 ^^^ rotr x 19 ^^^ (x >>> 10)

/-- The sixty-four round constants. -/
def K : List Nat :=
  [0x428a2f98, 0x71374491, 0xb5c0fbcf, 0xe9b5dba5, 0x3956c25b, 0x59f111f1, 0x923f82a4, 0xab1c5ed5,
   0xd807aa98, 0x12835b01, 0x243185be, 0x550c7dc3, 0x72be5d74, 0x80deb1fe, 0x9bdc06a7, 0xc19bf174,
   0xe49b69c1, 0xefbe4786, 0x0fc19dc6, 0x240ca1cc, 0x2de92c6f, 0x4a7484aa, 0x5cb0a9dc, 0x76f988da,
   0x983e5152, 0xa831c66d, 0xb00327c8, 0xbf597fc7, 0xc6e00bf3, 0xd5a79147, 0x06ca6351, 0x14292967,
   0x27b70a85, 0x2e1b2138, 0x4d2c6dfc, 0x53380d13, 0x650a7354, 0x766a0abb, 0x81c2c92e, 0x92722c85,
   0xa2bfe8a1, 0xa81a664b, 0xc24b8b70, 0xc76c51a3, 0xd192e819, 0xd6990624, 0xf40e3585, 0x106aa070,
   0x19a4c116, 0x1e376c08, 0x2748774c, 0x34b0bcb5, 0x391c0cb3, 0x4ed8aa4a, 0x5b9cca4f, 0x682e6ff3,
   0x748f82ee, 0x78a5636f, 0x84c87814, 0x8cc70208, 0x90befffa, 0xa4506ceb, 0xbef9a3f7, 0xc67178f2]

/-- The eight working variables / chaining values. -/
structure State where
  a : Nat
  b : Nat
  c : Nat
  d : Nat
  e : Nat
  f : Nat
  g : Nat
  h : Nat
  deriving DecidableEq, Repr

/-- The initial hash value. -/
def init : State :=
  ⟨0x6a09e667, 0xbb67ae85, 0x3c6ef372, 0xa54ff53a, 0x510e527f, 0x9b05688c, 0x1f83d9ab, 0x5be0cd19⟩

/-- Big-endian bytes of a word of `n` bytes. -/
def beBytes : Nat → Nat → List UInt8
  | 0, _ => []
  | n + 1, x => byte (x >>> (8 * n)) :: beBytes n x

/-- Big-endian value of a byte sequence. -/
def beWord (bs : List UInt8) : Nat :=
  bs.foldl (fun acc b => acc * 256 + b.toNat) 0

/-- Padding: the message, a `0x80` byte, zero bytes up to 56 modulo 64, and the
bit length as a 64-bit big-endian integer. -/
def pad (msg : List UInt8) : List UInt8 :=
  msg ++ [0x80] ++ List.replicate ((64 - (msg.length + 9) % 64) % 64) 0
    ++ beBytes 8 ((8 * msg.length) % 2 ^ 64)

/-- The sixteen words of a 64-byte block. -/
def blockWords (blk : List UInt8) : List Nat :=
  (List.range 16).map fun i => beWord ((blk.drop (4 * i)).take 4)

/-- Extend the message schedule by `n` words. -/
def schedule : Nat → List Nat → List Nat
  | 0, w => w
  | n + 1, w =>
    let t := w.length
    let x := add32 (add32 (smallSigma1 (w.getD (t - 2) 0)) (w.getD (t - 7) 0))
      (add32 (smallSigma0 (w.getD (t - 15) 0)) (w.getD (t - 16) 0))
    schedule n (w ++ [x])

/-- One round of the compression function. -/
def round (s : State) (kw : Nat × Nat) : State :=
  let t1 := add32 (add32 (add32 s.h (bigSigma1 s.e)) (add32 (ch s.e s.f s.g) kw.1)) kw.2
  let t2 := add32 (bigSigma0 s.a) (maj s.a s.b s.c)
  ⟨add32 t1 t2, s.a, s.b, s.c, add32 s.d t1, s.e, s.f, s.g⟩

/-- The compression function on one 64-byte block. -/
def compress (s : State) (blk : List UInt8) : State :=
  let w := schedule 48 (blockWords blk)
  let t := (K.zip w).foldl round s
  ⟨add32 s.a t.a, add32 s.b t.b, add32 s.c t.c, add32 s.d t.d,
   add32 s.e t.e, add32 s.f t.f, add32 s.g t.g, add32 s.h t.h⟩

/-- Process `n` consecutive 64-byte blocks. -/
def blocks : Nat → State → List UInt8 → State
  | 0, s, _ => s
  | n + 1, s, bs => blocks n (compress s (bs.take 64)) (bs.drop 64)

/-- The 32-byte digest of a state. -/
def digest (s : State) : List UInt8 :=
  [s.a, s.b, s.c, s.d, s.e, s.f, s.g, s.h].flatMap (beBytes 4)

/-- SHA-256 of a message: what `h := sha256.New(); h.Write(msg); h.Sum(nil)` returns. -/
def sum (msg : List UInt8) : List UInt8 :=
  let p := pad msg
  digest (blocks (p.length / 64) init p)

end SHA256

/-! ## The data model -/

/-- A value stored under `interface{}` in a transaction's `Data` map. -/
inductive Value where
  | str (s : GoString)
  | int (n : Int)
  | float (x : Float64)
  | bool (b : Bool)
  | null
  deriving DecidableEq, Repr

/-- The Go struct `Transaction`; `Data` is the list of the map's entries. -/
structure Transaction where
  ID : GoString
  From : GoString
  To : GoString
  Amount : Float64
  Timestamp : Int
  Signature : GoString
  Data : List (GoString × Value)
  deriving DecidableEq, Repr

/-- The Go struct `Block`. -/
structure Block where
  Index : Int
  Timestamp : Int
  Transactions : List Transaction
  PrevHash : GoString
  Hash : GoString
  Nonce : Int
  deriving DecidableEq, Repr

/-- The Go struct `Blockchain`. -/
structure Blockchain where
  Chain : List Block
  PendingTransactions : List Transaction
  Difficulty : Int
  MiningReward : Float64
  Nodes : List GoString
  deriving DecidableEq, Repr

/-- How a call that may loop or panic ends: it returns with a state, it
panics leaving a state behind, or it is still running when the iteration
budget given to the model is used up. -/
inductive Exec (α : Type) where
  | ret (a : α)
  | panic (a : α)
  | running (a : α)
  deriving DecidableEq, Repr

/-- The three clock readings of one `MinePendingTransactions` call, in the
order the code takes them. -/
structure Clock where
  /-- Value of `time.Now().String()` inside `generateTransactionID`. -/
  idNow : GoString
  /-- Value of `time.Now().Unix()` for the reward transaction. -/
  txNow : Int
  /-- Value of `time.Now().Unix()` for the candidate block. -/
  blockNow : Int
  deriving DecidableEq, Repr

/-! ## The operations -/

/-- Two's-complement wrap-around of a 64-bit signed integer. -/
def wrapInt64 (x : Int) : Int := (x + 2 ^ 63) % 2 ^ 64 - 2 ^ 63

/-- The record that `calculateHash` builds before hashing: the header fields,
then the loop `for _, tx := range block.Transactions { record += tx.ID }`. -/
def record (block : Block) : GoString :=
  let record := intstring block.Index ++ intstring block.Timestamp ++ block.PrevHash
    ++ intstring block.Nonce
  block.Transactions.foldl (fun record tx => record ++ tx.ID) record

/-- The Go function `calculateHash`. -/
def calculateHash (block : Block) : GoString :=
  hexEncodeToString (SHA256.sum (record block))

/-- The Go function `NewBlockchain`; `now` is the reading of `time.Now().Unix()`. -/
def NewBlockchain (difficulty : Int) (miningReward : Float64) (now : Int) : Blockchain :=
  let blockchain : Blockchain :=
    { Chain := [], PendingTransactions := [], Difficulty := difficulty,
      MiningReward := miningReward, Nodes := [] }
  let genesisBlock : Block :=
    { Index := 0, Timestamp := now, Transactions := [], PrevHash := lit "0", Hash := [],
      Nonce := 0 }
  let genesisBlock := { genesisBlock with Hash := calculateHash genesisBlock }
  { blockchain with Chain := blockchain.Chain ++ [genesisBlock] }

/-- The Go method `AddTransaction`: the returned boolean and the ledger afterwards. -/
def AddTransaction (bc : Blockchain) (tx : Transaction) : Bool × Blockchain :=
  (true, { bc with PendingTransactions := bc.PendingTransactions ++ [tx] })

/-- The Go function `generateTransactionID`, on the reading of `time.Now().String()`. -/
def generateTransactionID (now : GoString) : GoString :=
  lit "tx_" ++ hexEncodeToString now

/-- The exit test of the nonce search, `block.Hash[:bc.Difficulty] == target`,
for a difficulty within the bounds of the hash. -/
def exitTest (hash : GoString) (difficulty : Nat) (target : GoString) : Bool :=
  hash.take difficulty == target

/-- The `for` loop of `mineBlock`, run for at most `fuel` iterations. The slice
expression `block.Hash[:bc.Difficulty]` panics when the difficulty exceeds the
length of the hash. -/
def mineBlockLoop (difficulty : Nat) (target : GoString) : Nat → Block → Exec Block
  | 0, block => .running block
  | fuel + 1, block =>
    let block := { block with Hash := calculateHash block }
    if block.Hash.length < difficulty then .panic block
    else if exitTest block.Hash difficulty target then .ret block
    else mineBlockLoop difficulty target fuel { block with Nonce := wrapInt64 (block.Nonce + 1) }

/-- The Go method `mineBlock`, run for at most `fuel` iterations of its loop.
`make([]byte, bc.Difficulty)` panics on a negative length and otherwise yields
`bc.Difficulty` zero bytes. -/
def mineBlock (bc : Blockchain) (fuel : Nat) (block : Block) : Exec Block :=
  if bc.Difficulty < 0 then .panic block
  else
    let target : GoString := List.replicate bc.Difficulty.toNat 0
    mineBlockLoop bc.Difficulty.toNat target fuel block

/-- The reward transaction built by `MinePendingTransactions`. -/
def rewardTx (bc : Blockchain) (minerAddress : GoString) (clk : Clock) : Transaction :=
  { ID := generateTransactionID clk.idNow, From := lit "SYSTEM", To := minerAddress,
    Amount := bc.MiningReward, Timestamp := clk.txNow, Signature := [],
    Data := [(lit "type", Value.str (lit "mining_reward"))] }

/-- The Go method `MinePendingTransactions`, with at most `fuel` iterations of
the nonce search. Indexing `bc.Chain[len(bc.Chain)-1]` panics on an empty chain;
a panic leaves the ledger as it was mutated up to that point. -/
def MinePendingTransactions (bc : Blockchain) (minerAddress : GoString) (clk : Clock)
    (fuel : Nat) : Exec Blockchain :=
  let bc := { bc with PendingTransactions := bc.PendingTransactions ++ [rewardTx bc minerAddress clk] }
  match bc.Chain.getLast? with
  | none => .panic bc
  | some last =>
    let block : Block :=
      { Index := Int.ofNat bc.Chain.length, Timestamp := clk.blockNow,
        Transactions := bc.PendingTransactions, PrevHash := last.Hash, Hash := [], Nonce := 0 }
    match mineBlock bc fuel block with
    | .ret block => .ret { bc with Chain := bc.Chain ++ [block], PendingTransactions := [] }
    | .panic _ => .panic bc
    | .running _ => .running bc

/-- The loop of `IsChainValid` from index `i`, with `n` iterations left. -/
def isChainValidFrom (chain : List Block) : Nat → Nat → Bool
  | _, 0 => true
  | i, n + 1 =>
    match chain[i]?, chain[i - 1]? with
    | some currentBlock, some prevBlock =>
      if currentBlock.Hash ≠ calculateHash currentBlock then false
      else if currentBlock.PrevHash ≠ prevBlock.Hash then false
      else isChainValidFrom chain (i + 1) n
    | _, _ => false

/-- The Go method `IsChainValid`: `for i := 1; i < len(bc.Chain); i++`. -/
def IsChainValid (bc : Blockchain) : Bool :=
  isChainValidFrom bc.Chain 1 (bc.Chain.length - 1)

/-- The ledger a call leaves behind, however it ended. -/
def Exec.state {α : Type} : Exec α → α
  | .ret a => a
  | .panic a => a
  | .running a => a

/-! ## Specification-side definitions -/

/-- The digest as the specification words it: SHA-256, hex encoded, of the
string conversions of `Index` and `Timestamp`, then `PrevHash`, then the string
conversion of `Nonce`, then the `ID` of every transaction in sequence order. -/
def hashSpec (index timestamp : Int) (prevHash : GoString) (nonce : Int)
    (ids : List GoString) : GoString :=
  hexEncodeToString
    (SHA256.sum (intstring index ++ intstring timestamp ++ prevHash ++ intstring nonce
      ++ ids.flatten))

/-- The ledgers that `NewBlockchain`, `AddTransaction` and returning calls of
`MinePendingTransactions` can produce. -/
inductive Reachable : Blockchain → Prop where
  | new (difficulty : Int) (miningReward : Float64) (now : Int) :
      Reachable (NewBlockchain difficulty miningReward now)
  | add {bc : Blockchain} (tx : Transaction) :
      Reachable bc → Reachable (AddTransaction bc tx).2
  | mine {bc bc1 : Blockchain} (minerAddress : GoString) (clk : Clock) (fuel : Nat) :
      Reachable bc → MinePendingTransactions bc minerAddress clk fuel = .ret bc1 →
      Reachable bc1

/-- Overwrite the `Amount` of transaction `j` of block `i`, all else unchanged. -/
def setAmount (bc : Blockchain) (i j : Nat) (x : Float64) : Blockchain :=
  match bc.Chain[i]? with
  | none => bc
  | some b =>
    match b.Transactions[j]? with
    | none => bc
    | some t =>
      let t1 : Transaction := { t with Amount := x }
      let b1 : Block := { b with Transactions := b.Transactions.set j t1 }
      { bc with Chain := bc.Chain.set i b1 }

/-! ## The scenario of the specification -/

/-- The `float64` value 5. -/
def five : Float64 := 0x4014000000000000

/-- The `float64` value 6. -/
def six : Float64 := 0x4018000000000000

/-- The `float64` value 10. -/
def ten : Float64 := 0x4024000000000000

/-- The transaction `{From: "alice", To: "bob", Amount: 5}`; its other fields
have their zero values. -/
def aliceToBob : Transaction :=
  { ID := [], From := lit "alice", To := lit "bob", Amount := five, Timestamp := 0,
    Signature := [], Data := [] }

/-- Clock readings for one mining call. -/
def scenarioClock : Clock :=
  { idNow := lit "2023-11-14 22:13:20 +0000 UTC", txNow := 1700000000, blockNow := 1700000001 }

/-- The ledger `NewBlockchain(d, 10)` after `AddTransaction(aliceToBob)`. -/
def scenarioPool (d : Int) : Blockchain :=
  (AddTransaction (NewBlockchain d ten 1699999999) aliceToBob).2

/-- The ledger of difficulty 0 after `MinePendingTransactions("miner1")`. -/
def sealedLedger : Blockchain :=
  (MinePendingTransactions (scenarioPool 0) (lit "miner1") scenarioClock 1).state

/-- The candidate block that `MinePendingTransactions("miner1")` assembles on
the scenario ledger of difficulty 2, with its nonce set to `n`. -/
def scenarioCandidate (n : Int) : Block :=
  let bc := scenarioPool 2
  { Index := Int.ofNat bc.Chain.length, Timestamp := scenarioClock.blockNow,
    Transactions := bc.PendingTransactions ++ [rewardTx bc (lit "miner1") scenarioClock],
    PrevHash := (bc.Chain.getLast?.map Block.Hash).getD [], Hash := [], Nonce := n }

/-- The zero value `Transaction{}`: every string empty, no data. -/
def zeroTransaction : Transaction :=
  { ID := [], From := [], To := [], Amount := 0, Timestamp := 0, Signature := [], Data := [] }

/-- A block with a realistic Unix time as `Timestamp`. -/
def stampedBlock (timestamp : Int) : Block :=
  { Index := 1, Timestamp := timestamp, Transactions := [], PrevHash := lit "0", Hash := [],
    Nonce := 0 }

/-- A transaction that has only an `ID`. -/
def txWithID (id : GoString) : Transaction :=
  { zeroTransaction with ID := id }

/-- A block given by the part of its fields after `Timestamp` that is hashed. -/
def boundaryBlock (prevHash : GoString) (nonce : Int) (ids : List GoString) : Block :=
  { Index := 1, Timestamp := 0, Transactions := ids.map txWithID, PrevHash := prevHash,
    Hash := [], Nonce := nonce }

/-! ## Reachability from a given ledger, and instrumented loops -/

/-- The ledgers obtained from a given ledger by `AddTransaction` calls and
returning `MinePendingTransactions` calls. -/
inductive ReachableFrom (start : Blockchain) : Blockchain → Prop where
  | start : ReachableFrom start start
  | add {bc : Blockchain} (tx : Transaction) :
      ReachableFrom start bc → ReachableFrom start (AddTransaction bc tx).2
  | mine {bc bc1 : Blockchain} (minerAddress : GoString) (clk : Clock) (fuel : Nat) :
      ReachableFrom start bc → MinePendingTransactions bc minerAddress clk fuel = .ret bc1 →
      ReachableFrom start bc1

/-- Reachable ledgers in which every `AddTransaction` call passed a transaction
whose `ID` occurred in no block of the chain at the time of the call. -/
inductive ReachableFresh : Blockchain → Prop where
  | new (difficulty : Int) (miningReward : Float64) (now : Int) :
      ReachableFresh (NewBlockchain difficulty miningReward now)
  | add {bc : Blockchain} (tx : Transaction) :
      ReachableFresh bc → (∀ b ∈ bc.Chain, ∀ t ∈ b.Transactions, t.ID ≠ tx.ID) →
      ReachableFresh (AddTransaction bc tx).2
  | mine {bc bc1 : Blockchain} (minerAddress : GoString) (clk : Clock) (fuel : Nat) :
      ReachableFresh bc → MinePendingTransactions bc minerAddress clk fuel = .ret bc1 →
      ReachableFresh bc1

/-- The scenario transaction with the identifier `"tx_1"`. -/
def paidTx : Transaction := { aliceToBob with ID := lit "tx_1" }

/-- The ledger of difficulty 0 after `AddTransaction(paidTx)`, a mining call,
and `AddTransaction(paidTx)` once more. -/
def requeuedLedger : Blockchain :=
  (AddTransaction
    (MinePendingTransactions (AddTransaction (NewBlockchain 0 ten 1699999999) paidTx).2
      (lit "miner1") scenarioClock 1).state paidTx).2

/-- The loop of `IsChainValid` with the bounds checks of the two index
expressions `bc.Chain[i]` and `bc.Chain[i-1]` made explicit: `none` is the
run-time panic "index out of range". -/
def isChainValidFromChecked (chain : List Block) : Nat → Nat → Option Bool
  | _, 0 => some true
  | i, n + 1 =>
    match chain[i]?, chain[i - 1]? with
    | some currentBlock, some prevBlock =>
      if currentBlock.Hash ≠ calculateHash currentBlock then some false
      else if currentBlock.PrevHash ≠ prevBlock.Hash then some false
      else isChainValidFromChecked chain (i + 1) n
    | _, _ => none

/-- The Go method `IsChainValid` with its bounds checks made explicit. -/
def IsChainValidChecked (bc : Blockchain) : Option Bool :=
  isChainValidFromChecked bc.Chain 1 (bc.Chain.length - 1)

/-- The nonce of the candidate block after `k` executions of `block.Nonce++`. -/
def nonceAfter (start : Int) : Nat → Int
  | 0 => start
  | k + 1 => wrapInt64 (nonceAfter start k + 1)

/-- The sealed scenario ledger after `AddTransaction` of a transaction with
the new identifier `"tx_2"`. -/
def freshLedger : Blockchain :=
  (AddTransaction sealedLedger { aliceToBob with ID := lit "tx_2" }).2

/-- The sealed scenario ledger with the `Timestamp` of block 1 rewritten. -/
def restampedLedger (t : Int) : Blockchain :=
  match sealedLedger.Chain[1]? with
  | none => sealedLedger
  | some b => { sealedLedger with Chain := sealedLedger.Chain.set 1 { b with Timestamp := t } }

end Core

/-! ## `backend/controllers/auth_controller.go`: `verifySignature` -/

namespace Controllers

open Core

/-- The value of a hexadecimal digit (`reverseHexTable` of `encoding/hex`), or
`none` for any other byte. -/
def fromHexChar (c : UInt8) : Option Nat :=
  if 48 ≤ c.toNat ∧ c.toNat ≤ 57 then some (c.toNat - 48)
  else if 97 ≤ c.toNat ∧ c.toNat ≤ 102 then some (c.toNat - 97 + 10)
  else if 65 ≤ c.toNat ∧ c.toNat ≤ 70 then some (c.toNat - 65 + 10)
  else none

/-- Go's `hex.DecodeString`: the decoded bytes, or `none` when it returns an
error (a byte that is no hex digit, or an odd length). -/
def DecodeString : GoString → Option (List UInt8)
  | [] => some []
  | [_] => none
  | p :: q :: rest =>
    match fromHexChar p, fromHexChar q with
    | some a, some b => (DecodeString rest).map fun t => byte (a * 16 + b) :: t
    | _, _ => none

/-- The functions of `go-ethereum` that `verifySignature` calls. -/
structure Crypto where
  /-- The function `crypto.Keccak256`. -/
  Keccak256 : List UInt8 → List UInt8
  /-- The function `crypto.Ecrecover(hash, sig)`; `none` is a returned error. -/
  Ecrecover : List UInt8 → List UInt8 → Option (List UInt8)
  /-- The composition `common.BytesToAddress(b).Hex()`. -/
  addressHex : List UInt8 → GoString

/-- How a call of `verifySignature` ends: with a boolean, or with a run-time
panic. -/
inductive Outcome where
  | ret (b : Bool)
  | panic
  deriving DecidableEq, Repr

/-- The Go function `verifySignature`. The index expression `sig[64]` and the
slice expressions `pubKey[1:]` and `...[12:]` panic when out of range. -/
def verifySignature (lib : Crypto) (address message signature : GoString) : Outcome :=
  match DecodeString signature with
  | none => .ret false
  | some sig =>
    let prefixedMessage :=
      lit "\x19Ethereum Signed Message:\n" ++ intstring (Int.ofNat message.length) ++ message
    let messageHash := lib.Keccak256 prefixedMessage
    match sig[64]? with
    | none => .panic
    | some v =>
      let sig := if 27 ≤ v.toNat then sig.set 64 (byte (v.toNat - 27)) else sig
      match lib.Ecrecover messageHash sig with
      | none => .ret false
      | some pubKey =>
        if pubKey.length < 1 then .panic
        else
          let digest := lib.Keccak256 (pubKey.drop 1)
          if digest.length < 12 then .panic
          else .ret (lib.addressHex (digest.drop 12) == address)

end Controllers

/-! ## `main.go`: the toy node -/

namespace Main

open Core

/-- The Go struct `Transaction` of package `main`. -/
structure Transaction where
  ID : Int
  Amount : Float64
  Sender : GoString
  Receiver : GoString
  deriving DecidableEq, Repr

/-- The Go struct `Block` of package `main`. -/
structure Block where
  Index : Int
  Transactions : List Transaction
  PreviousHash : GoString
  Hash : GoString
  deriving DecidableEq, Repr

/-- The Go struct `Node`; the mutex, which guards each method as a whole, has
no state of its own between calls. -/
structure Node where
  ID : GoString
  Blockchain : List Block
  deriving DecidableEq, Repr

/-- The Go function `CreateGenesisBlock`. -/
def CreateGenesisBlock : Block :=
  { Index := 0, Transactions := [], PreviousHash := lit "0", Hash := lit "genesis_hash" }

/-- The Go method `Node.AddTransaction`: the node afterwards, or `none` when
`node.Blockchain[len(node.Blockchain)-1]` panics on an empty chain. The line
printed on standard output is not modelled. -/
def Node.AddTransaction (node : Node) (tx : Transaction) : Option Node :=
  if node.Blockchain.length = 0 then none
  else
    match node.Blockchain[node.Blockchain.length - 1]? with
    | none => none
    | some latestBlock =>
      let latestBlock := { latestBlock with Transactions := latestBlock.Transactions ++ [tx] }
      some { node with Blockchain := node.Blockchain.set (node.Blockchain.length - 1) latestBlock }

/-- The transaction `tx1` of `SimulateNetwork`; 100 as a `float64`. -/
def tx1 : Transaction :=
  { ID := 1, Amount := 0x4059000000000000, Sender := lit "Alice", Receiver := lit "Bob" }

/-- The node `nodeA` of `SimulateNetwork` after `AddBlock(newBlock)`. -/
def nodeA : Node :=
  { ID := lit "A",
    Blockchain := [CreateGenesisBlock,
      { Index := 1, Transactions := [tx1], PreviousHash := lit "genesis_hash",
        Hash := lit "block_1_hash" }] }

end Main

namespace Core

/-! ## Basic facts about the primitives -/

theorem hexByte_length (v : UInt8) : (hexByte v).length = 2 := rfl

theorem hexEncodeToString_length (src : List UInt8) :
    (hexEncodeToString src).length = 2 * src.length := by
  induction src with
  | nil => rfl
  | cons v vs ih =>
    simp only [hexEncodeToString, List.flatMap_cons, List.length_append, hexByte_length,
      List.length_cons] at ih ⊢
    omega

theorem hextable_getD_mem (n : Nat) (h : n < 16) : hextable.getD n 0 ∈ hextable := by
  have : ∀ k : Fin 16, hextable.getD k.val 0 ∈ hextable := by decide
  exact this ⟨n, h⟩

theorem hexByte_subset (v : UInt8) : ∀ c ∈ hexByte v, c ∈ hextable := by
  intro c hc
  have hv : v.toNat < 256 := v.val.isLt
  simp only [hexByte, List.mem_cons, List.mem_singleton, List.not_mem_nil, or_false] at hc
  rcases hc with rfl | rfl
  · exact hextable_getD_mem _ (by omega)
  · exact hextable_getD_mem _ (by omega)

/-- Every byte of a hex encoding is one of the sixteen digits `0-9a-f`. -/
theorem hexEncodeToString_subset (src : List UInt8) :
    ∀ c ∈ hexEncodeToString src, c ∈ hextable := by
  intro c hc
  simp only [hexEncodeToString, List.mem_flatMap] at hc
  obtain ⟨v, -, hv⟩ := hc
  exact hexByte_subset v c hv

theorem SHA256.beBytes_length (n x : Nat) : (SHA256.beBytes n x).length = n := by
  induction n with
  | zero => rfl
  | succ n ih => simp [SHA256.beBytes, ih]

theorem SHA256.sum_length (msg : List UInt8) : (SHA256.sum msg).length = 32 := by
  simp [SHA256.sum, SHA256.digest, SHA256.beBytes_length]

theorem calculateHash_length (block : Block) : (calculateHash block).length = 64 := by
  simp [calculateHash, hexEncodeToString_length, SHA256.sum_length]

/-- The stored `Hash` is not an input of `calculateHash`. -/
theorem calculateHash_setHash (block : Block) (h : GoString) :
    calculateHash { block with Hash := h } = calculateHash block := rfl

/-! ## The chain validator -/

theorem isChainValidFrom_iff (chain : List Block) :
    ∀ n i, 1 ≤ i → i + n = chain.length →
      (isChainValidFrom chain i n = true ↔
        ∀ j, i ≤ j → ∀ h : j < chain.length,
          chain[j].Hash = calculateHash chain[j] ∧ chain[j].PrevHash = chain[j - 1].Hash) := by
  intro n
  induction n with
  | zero =>
    intro i _ hlen
    simp only [isChainValidFrom, true_iff]
    intro j hj h
    omega
  | succ n ih =>
    intro i hi hlen
    have h1 : i < chain.length := by omega
    have h0 : i - 1 < chain.length := by omega
    rw [isChainValidFrom, List.getElem?_eq_getElem h1, List.getElem?_eq_getElem h0]
    simp only [ne_eq, ite_not]
    by_cases hh : chain[i].Hash = calculateHash chain[i]
    · by_cases hp : chain[i].PrevHash = chain[i - 1].Hash
      · rw [if_pos hh, if_pos hp, ih (i + 1) (by omega) (by omega)]
        constructor
        · intro H j hj h
          rcases Nat.eq_or_lt_of_le hj with rfl | hlt
          · exact ⟨hh, hp⟩
          · exact H j hlt h
        · intro H j hj h
          exact H j (by omega) h
      · rw [if_pos hh, if_neg hp]
        constructor
        · intro H; cases H
        · intro H; exact absurd (H i (Nat.le_refl i) h1).2 hp
    · rw [if_neg hh]
      constructor
      · intro H; cases H
      · intro H; exact absurd (H i (Nat.le_refl i) h1).1 hh

theorem isChainValid_iff (bc : Blockchain) :
    IsChainValid bc = true ↔
      ∀ i, 1 ≤ i → ∀ h : i < bc.Chain.length,
        bc.Chain[i].Hash = calculateHash bc.Chain[i] ∧
          bc.Chain[i].PrevHash = bc.Chain[i - 1].Hash := by
  rcases Nat.eq_zero_or_pos bc.Chain.length with h0 | hpos
  · have : IsChainValid bc = true := by
      simp [IsChainValid, h0, isChainValidFrom]
    simp only [this, true_iff]
    intro i _ h
    omega
  · exact isChainValidFrom_iff bc.Chain (bc.Chain.length - 1) 1 (Nat.le_refl 1) (by omega)

/-- C1. `IsChainValid` returns true exactly when every block at an index
`i` with `1 ≤ i < len(Chain)` stores the hash recomputed from its own fields and
stores, as `PrevHash`, the `Hash` of the block before it. The genesis block is
read only for its stored `Hash`: replacing it by any block with the same
stored `Hash` does not change the result, so its own hash is never recomputed. -/
theorem C1_isChainValid_iff_links :
    (∀ bc : Blockchain, IsChainValid bc = true ↔
      ∀ i, 1 ≤ i → ∀ h : i < bc.Chain.length,
        bc.Chain[i].Hash = calculateHash bc.Chain[i] ∧
          bc.Chain[i].PrevHash = bc.Chain[i - 1].Hash) ∧
    (∀ (bc : Blockchain) (g g0 : Block) (rest : List Block),
      bc.Chain = g :: rest → g0.Hash = g.Hash →
        IsChainValid { bc with Chain := g0 :: rest } = IsChainValid bc) := by
  refine ⟨isChainValid_iff, ?_⟩
  intro bc g g0 rest hc hg
  rw [Bool.eq_iff_iff, isChainValid_iff, isChainValid_iff]
  simp only [hc]
  constructor
  · intro H i hi h
    have h2 : i < (g0 :: rest).length := by simpa using h
    have := H i hi h2
    obtain ⟨k, rfl⟩ : ∃ k, i = k + 1 := ⟨i - 1, by omega⟩
    cases k with
    | zero => simpa [hg] using this
    | succ k => simpa using this
  · intro H i hi h
    have h2 : i < (g :: rest).length := by simpa using h
    have := H i hi h2
    obtain ⟨k, rfl⟩ : ∃ k, i = k + 1 := ⟨i - 1, by omega⟩
    cases k with
    | zero => simpa [hg] using this
    | succ k => simpa using this

/-! ## Tampering with a sealed block -/

theorem record_eq (block : Block) :
    record block = intstring block.Index ++ intstring block.Timestamp ++ block.PrevHash
      ++ intstring block.Nonce ++ (block.Transactions.map Transaction.ID).flatten := by
  have key : ∀ (txs : List Transaction) (init : GoString),
      txs.foldl (fun r tx => r ++ tx.ID) init = init ++ (txs.map Transaction.ID).flatten := by
    intro txs
    induction txs with
    | nil => intro init; simp
    | cons t ts ih => intro init; simp [ih, List.append_assoc]
  exact key _ _

theorem isChainValid_set (bc : Blockchain) (i : Nat) (hi : 1 ≤ i) (h : i < bc.Chain.length)
    (hv : IsChainValid bc = true) (b : Block) :
    IsChainValid { bc with Chain := bc.Chain.set i b } = true ↔
      b.Hash = calculateHash b ∧ b.PrevHash = bc.Chain[i - 1].Hash ∧
        ∀ h2 : i + 1 < bc.Chain.length, bc.Chain[i + 1].PrevHash = b.Hash := by
  rw [isChainValid_iff] at hv ⊢
  constructor
  · intro H
    have Hi := H i hi (by simpa using h)
    simp only [List.getElem_set_self] at Hi
    rw [List.getElem_set_ne (by omega)] at Hi
    refine ⟨Hi.1, Hi.2, ?_⟩
    intro h2
    have Hs := (H (i + 1) (by omega) (by simpa using h2)).2
    simp only [Nat.add_sub_cancel, List.getElem_set_self] at Hs
    rw [List.getElem_set_ne (by omega)] at Hs
    exact Hs
  · rintro ⟨H1, H2, H3⟩ j hj hjl
    have hjl0 : j < bc.Chain.length := by simpa using hjl
    by_cases hji : j = i
    · subst hji
      simp only [List.getElem_set_self]
      rw [List.getElem_set_ne (by omega)]
      exact ⟨H1, H2⟩
    · by_cases hjs : j = i + 1
      · subst hjs
        simp only [Nat.add_sub_cancel, List.getElem_set_self]
        rw [List.getElem_set_ne (by omega)]
        exact ⟨(hv (i + 1) hj hjl0).1, H3 hjl0⟩
      · rw [List.getElem_set_ne (by omega), List.getElem_set_ne (by omega)]
        exact hv j hj hjl0

/-- C2 (counterexample). In the sealed scenario ledger (valid, two blocks),
overwriting the amount 5 of transaction 0 of block 1 by 6 changes the ledger
and `IsChainValid` still returns true. -/
theorem C2_amount_change_undetected :
    MinePendingTransactions (scenarioPool 0) (lit "miner1") scenarioClock 1 = .ret sealedLedger ∧
    IsChainValid sealedLedger = true ∧
    (sealedLedger.Chain[1]?.bind fun b => b.Transactions[0]?.map Transaction.Amount) = some five ∧
    setAmount sealedLedger 1 0 six ≠ sealedLedger ∧
    IsChainValid (setAmount sealedLedger 1 0 six) = true := by
  decide!

/-- C2 (amended). On a ledger on which `IsChainValid` returns true, replacing a
non-genesis block `Chain[i]` by a block `b`:
* if `b` keeps `Hash` and `PrevHash`, `IsChainValid` returns false exactly when
  the digest `calculateHash` of `b` differs from that of the old block;
* if `b` moreover keeps `Index`, `Timestamp`, `Nonce` and the list of
  transaction IDs (so only transaction fields other than `ID`, such as
  `Amount`, change), `IsChainValid` still returns true;
* changing only `Hash`, or only `PrevHash`, to a different string makes
  `IsChainValid` return false. -/
theorem C2_tamper_detected_iff_digest_changes (bc : Blockchain) (i : Nat) (hi : 1 ≤ i)
    (h : i < bc.Chain.length) (hv : IsChainValid bc = true) :
    (∀ b : Block, b.Hash = bc.Chain[i].Hash → b.PrevHash = bc.Chain[i].PrevHash →
      (IsChainValid { bc with Chain := bc.Chain.set i b } = false ↔
        calculateHash b ≠ calculateHash bc.Chain[i])) ∧
    (∀ b : Block, b.Hash = bc.Chain[i].Hash → b.PrevHash = bc.Chain[i].PrevHash →
      b.Index = bc.Chain[i].Index → b.Timestamp = bc.Chain[i].Timestamp →
      b.Nonce = bc.Chain[i].Nonce →
      b.Transactions.map Transaction.ID = bc.Chain[i].Transactions.map Transaction.ID →
      IsChainValid { bc with Chain := bc.Chain.set i b } = true) ∧
    (∀ x : GoString, x ≠ bc.Chain[i].Hash →
      IsChainValid { bc with Chain := bc.Chain.set i { bc.Chain[i] with Hash := x } } = false) ∧
    (∀ x : GoString, x ≠ bc.Chain[i].PrevHash →
      IsChainValid { bc with Chain := bc.Chain.set i { bc.Chain[i] with PrevHash := x } }
        = false) := by
  have hold := (isChainValid_iff bc).1 hv i hi h
  have keep : ∀ b : Block, b.Hash = bc.Chain[i].Hash → b.PrevHash = bc.Chain[i].PrevHash →
      (IsChainValid { bc with Chain := bc.Chain.set i b } = true ↔
        calculateHash b = calculateHash bc.Chain[i]) := by
    intro b hH hP
    rw [isChainValid_set bc i hi h hv b, hH, hP, ← hold.1]
    constructor
    · intro H; exact H.1.symm
    · intro H
      refine ⟨H.symm, hold.2, ?_⟩
      intro h2
      exact ((isChainValid_iff bc).1 hv (i + 1) (by omega) h2).2
  refine ⟨?_, ?_, ?_, ?_⟩
  · intro b hH hP
    rw [← Bool.not_eq_true, keep b hH hP]
  · intro b hH hP hI hT hN hIDs
    rw [keep b hH hP]
    simp only [calculateHash, record_eq, hI, hT, hN, hP, hIDs]
  · intro x hx
    rw [← Bool.not_eq_true, isChainValid_set bc i hi h hv]
    rintro ⟨H, -, -⟩
    exact hx (H.trans hold.1.symm)
  · intro x hx
    rw [← Bool.not_eq_true, isChainValid_set bc i hi h hv]
    rintro ⟨-, H, -⟩
    exact hx (H.trans hold.2.symm)

/-- C2 (witness). The amended statement applied to block 1 of the sealed
scenario ledger: the ledger is valid, and it stays valid when the amount of
its first transaction is overwritten. -/
theorem C2_tamper_detected_iff_digest_changes_witness :
    IsChainValid sealedLedger = true ∧
    ∃ h : 1 < sealedLedger.Chain.length,
      (∀ b : Block, b.Hash = sealedLedger.Chain[1].Hash →
        b.PrevHash = sealedLedger.Chain[1].PrevHash →
        (IsChainValid { sealedLedger with Chain := sealedLedger.Chain.set 1 b } = false ↔
          calculateHash b ≠ calculateHash sealedLedger.Chain[1])) :=
  ⟨by decide!, by decide!,
    (C2_tamper_detected_iff_digest_changes sealedLedger 1 (Nat.le_refl 1) (by decide!)
      (by decide!)).1⟩

/-! ## The nonce search -/

theorem zero_not_mem_hextable : (0 : UInt8) ∉ hextable := by decide

/-- The exit test, with the target the code builds (`difficulty` zero bytes),
rejects every string of hex digits when `1 ≤ difficulty ≤ len`. -/
theorem exitTest_hex_false (h : GoString) (d : Nat) (hh : ∀ c ∈ h, c ∈ hextable)
    (hd : 1 ≤ d) (hl : d ≤ h.length) : exitTest h d (List.replicate d 0) = false := by
  rw [← Bool.not_eq_true]
  intro ht
  simp only [exitTest, beq_iff_eq] at ht
  obtain ⟨k, rfl⟩ : ∃ k, d = k + 1 := ⟨d - 1, by omega⟩
  cases h with
  | nil => simp at hl
  | cons c t =>
    simp only [List.take_succ_cons, List.replicate_succ, List.cons.injEq] at ht
    exact zero_not_mem_hextable (ht.1 ▸ hh c (List.mem_cons_self c t))

theorem exitTest_calculateHash_false (block : Block) (d : Nat) (hd : 1 ≤ d) (hl : d ≤ 64) :
    exitTest (calculateHash block) d (List.replicate d 0) = false :=
  exitTest_hex_false _ d (hexEncodeToString_subset _) hd (by rw [calculateHash_length]; exact hl)

theorem mineBlockLoop_ret {d : Nat} {target : GoString} :
    ∀ (fuel : Nat) (block sealed : Block),
      mineBlockLoop d target fuel block = .ret sealed →
        sealed.Index = block.Index ∧ sealed.Timestamp = block.Timestamp ∧
        sealed.Transactions = block.Transactions ∧ sealed.PrevHash = block.PrevHash ∧
        sealed.Hash = calculateHash sealed ∧ exitTest sealed.Hash d target = true := by
  intro fuel
  induction fuel with
  | zero => intro block sealed h; simp [mineBlockLoop] at h
  | succ n ih =>
    intro block sealed h
    rw [mineBlockLoop] at h
    simp only at h
    split at h
    · cases h
    · split at h
      · next hex =>
        cases h
        exact ⟨rfl, rfl, rfl, rfl, rfl, hex⟩
      · have hrec := ih _ _ h
        exact hrec

theorem mineBlockLoop_running (d : Nat) (hd : 1 ≤ d) (hl : d ≤ 64) :
    ∀ (fuel : Nat) (block : Block),
      ∃ b, mineBlockLoop d (List.replicate d 0) fuel block = .running b := by
  intro fuel
  induction fuel with
  | zero => intro block; exact ⟨block, rfl⟩
  | succ n ih =>
    intro block
    rw [mineBlockLoop]
    simp only [calculateHash_length, exitTest_calculateHash_false _ d hd hl]
    rw [if_neg (by omega)]
    simpa using ih _

theorem mineBlockLoop_zero (fuel : Nat) (block : Block) :
    mineBlockLoop 0 [] (fuel + 1) block = .ret { block with Hash := calculateHash block } := by
  simp [mineBlockLoop, exitTest]

theorem mineBlock_ret {bc : Blockchain} {fuel : Nat} {block sealed : Block}
    (h : mineBlock bc fuel block = .ret sealed) :
    sealed.Index = block.Index ∧ sealed.Timestamp = block.Timestamp ∧
      sealed.Transactions = block.Transactions ∧ sealed.PrevHash = block.PrevHash ∧
      sealed.Hash = calculateHash sealed := by
  unfold mineBlock at h
  split at h
  · cases h
  · have := mineBlockLoop_ret _ _ _ h
    exact ⟨this.1, this.2.1, this.2.2.1, this.2.2.2.1, this.2.2.2.2.1⟩

/-- Every returning call of `MinePendingTransactions` appends one sealed block
whose transactions are the pool followed by the reward transaction. -/
theorem minePendingTransactions_ret {bc bc1 : Blockchain} {minerAddress : GoString}
    {clk : Clock} {fuel : Nat}
    (h : MinePendingTransactions bc minerAddress clk fuel = .ret bc1) :
    ∃ last sealed, bc.Chain.getLast? = some last ∧
      bc1 = { bc with Chain := bc.Chain ++ [sealed], PendingTransactions := [] } ∧
      sealed.Index = Int.ofNat bc.Chain.length ∧ sealed.Timestamp = clk.blockNow ∧
      sealed.Transactions = bc.PendingTransactions ++ [rewardTx bc minerAddress clk] ∧
      sealed.PrevHash = last.Hash ∧ sealed.Hash = calculateHash sealed := by
  unfold MinePendingTransactions at h
  simp only at h
  split at h
  · cases h
  · next last hlast =>
    split at h
    · next sealed hm =>
      cases h
      have := mineBlock_ret hm
      exact ⟨last, sealed, hlast, rfl, this.1, this.2.1, this.2.2.1, this.2.2.2.1, this.2.2.2.2⟩
    · cases h
    · cases h

/-- C3. Whenever `MinePendingTransactions` returns, the chain is the old chain
with exactly one block appended, that block holds the previously pending
transactions in their queued order followed by the reward transaction (one more
than the prior pending count), and the pool is empty. A call that returns
started from a non-empty chain. -/
theorem C3_mine_drains_pool (bc bc1 : Blockchain) (minerAddress : GoString) (clk : Clock)
    (fuel : Nat) (hret : MinePendingTransactions bc minerAddress clk fuel = .ret bc1) :
    bc.Chain ≠ [] ∧
    bc1.Chain.length = bc.Chain.length + 1 ∧
    (∃ sealed : Block, bc1.Chain = bc.Chain ++ [sealed] ∧
      bc1.Chain.getLast? = some sealed ∧
      sealed.Transactions = bc.PendingTransactions ++ [rewardTx bc minerAddress clk] ∧
      sealed.Transactions.length = bc.PendingTransactions.length + 1) ∧
    bc1.PendingTransactions = [] := by
  obtain ⟨last, sealed, hlast, rfl, -, -, htx, -, -⟩ := minePendingTransactions_ret hret
  refine ⟨?_, by simp, ⟨sealed, rfl, by simp, htx, by simp [htx]⟩, rfl⟩
  intro hnil
  simp [hnil] at hlast

/-- C3 (witness). The scenario ledger of difficulty 0 with one pending
transaction: the call returns `sealedLedger`. -/
theorem C3_mine_drains_pool_witness :
    MinePendingTransactions (scenarioPool 0) (lit "miner1") scenarioClock 1 = .ret sealedLedger ∧
    sealedLedger.Chain.length = (scenarioPool 0).Chain.length + 1 ∧
    sealedLedger.PendingTransactions = [] :=
  have h : MinePendingTransactions (scenarioPool 0) (lit "miner1") scenarioClock 1
      = .ret sealedLedger := by decide!
  ⟨h, (C3_mine_drains_pool (scenarioPool 0) sealedLedger (lit "miner1") scenarioClock 1 h).2.1,
    (C3_mine_drains_pool (scenarioPool 0) sealedLedger (lit "miner1") scenarioClock 1 h).2.2.2⟩

theorem exitTest_true_iff (h : GoString) (d : Nat) (hh : ∀ c ∈ h, c ∈ hextable)
    (hl : d ≤ h.length) : exitTest h d (List.replicate d 0) = true ↔ d = 0 := by
  constructor
  · intro ht
    by_contra hd
    have := exitTest_hex_false h d hh (by omega) hl
    rw [ht] at this
    cases this
  · rintro rfl
    simp [exitTest]

/-- C4 (the code at the failing input). With the target that `mineBlock`
builds, `difficulty` zero bytes, the exit test accepts a string of hex digits
only when the difficulty is 0. The candidate block of the scenario with nonce
207 has a digest that starts with the two characters `00`, and the exit test
for difficulty 2 rejects it. -/
theorem C4_exit_test_rejects_leading_zeros :
    (∀ (h : GoString) (d : Nat), (∀ c ∈ h, c ∈ hextable) → h.length = 64 → d ≤ 64 →
      (exitTest h d (List.replicate d 0) = true ↔ d = 0)) ∧
    calculateHash (scenarioCandidate 207)
      = lit "002f5536f8c4e3bcf70a7963b110072801bb41376c53d9ddf07e37d4942593ec" ∧
    (calculateHash (scenarioCandidate 207)).take 2 = lit "00" ∧
    exitTest (calculateHash (scenarioCandidate 207)) 2 (List.replicate 2 0) = false := by
  refine ⟨?_, by decide!, by decide!, by decide!⟩
  intro h d hh hlen hd
  exact exitTest_true_iff h d hh (by omega)

theorem minePendingTransactions_running (bc : Blockchain) (minerAddress : GoString)
    (clk : Clock) (hne : bc.Chain ≠ []) (hd : 1 ≤ bc.Difficulty) (hl : bc.Difficulty ≤ 64)
    (fuel : Nat) :
    MinePendingTransactions bc minerAddress clk fuel = .running
      { bc with PendingTransactions :=
          bc.PendingTransactions ++ [rewardTx bc minerAddress clk] } := by
  unfold MinePendingTransactions
  simp only
  obtain ⟨last, hlast⟩ : ∃ last, bc.Chain.getLast? = some last := by
    cases hc : bc.Chain.getLast? with
    | none => exact absurd (List.getLast?_eq_none_iff.1 hc) hne
    | some last => exact ⟨last, rfl⟩
  rw [hlast]
  simp only
  obtain ⟨b, hb⟩ := mineBlockLoop_running bc.Difficulty.toNat (by omega) (by omega) fuel
    { Index := Int.ofNat bc.Chain.length, Timestamp := clk.blockNow,
      Transactions := bc.PendingTransactions ++ [rewardTx bc minerAddress clk],
      PrevHash := last.Hash, Hash := [], Nonce := 0 }
  have hm : mineBlock
      { bc with PendingTransactions :=
          bc.PendingTransactions ++ [rewardTx bc minerAddress clk] } fuel
      { Index := Int.ofNat bc.Chain.length, Timestamp := clk.blockNow,
        Transactions := bc.PendingTransactions ++ [rewardTx bc minerAddress clk],
        PrevHash := last.Hash, Hash := [], Nonce := 0 } = .running b := by
    unfold mineBlock
    rw [if_neg (by simp only; omega)]
    exact hb
  rw [hm]

/-- C5 (the code at the failing inputs). On a ledger with a non-empty chain and
`1 ≤ Difficulty ≤ 64` no block at all passes the exit test of `mineBlock`, and
`MinePendingTransactions` is still running after any number of iterations of
the nonce search, the reward transaction already appended to the pool and the
chain not extended. -/
theorem C5_nonce_search_never_stops (bc : Blockchain) (minerAddress : GoString) (clk : Clock)
    (hne : bc.Chain ≠ []) (hd : 1 ≤ bc.Difficulty) (hl : bc.Difficulty ≤ 64) :
    (∀ block : Block,
      exitTest (calculateHash block) bc.Difficulty.toNat
        (List.replicate bc.Difficulty.toNat 0) = false) ∧
    ∀ fuel : Nat, MinePendingTransactions bc minerAddress clk fuel = .running
      { bc with PendingTransactions :=
          bc.PendingTransactions ++ [rewardTx bc minerAddress clk] } :=
  ⟨fun block => exitTest_calculateHash_false block _ (by omega) (by omega),
    minePendingTransactions_running bc minerAddress clk hne hd hl⟩

/-- C5 (witness). The scenario: `NewBlockchain(2, 10)`, one `AddTransaction`,
then `MinePendingTransactions("miner1")` never returns and the chain keeps its
single block. -/
theorem C5_nonce_search_never_stops_witness :
    (scenarioPool 2).Chain.length = 1 ∧ (scenarioPool 2).Difficulty = 2 ∧
    ∀ fuel : Nat,
      (MinePendingTransactions (scenarioPool 2) (lit "miner1") scenarioClock fuel).state.Chain.length
        = 1 ∧
      MinePendingTransactions (scenarioPool 2) (lit "miner1") scenarioClock fuel = .running
        { scenarioPool 2 with PendingTransactions :=
            (scenarioPool 2).PendingTransactions
              ++ [rewardTx (scenarioPool 2) (lit "miner1") scenarioClock] } :=
  ⟨rfl, rfl, fun fuel =>
    have h := (C5_nonce_search_never_stops (scenarioPool 2) (lit "miner1") scenarioClock
      (by simp [scenarioPool, AddTransaction, NewBlockchain]) (by decide) (by decide)).2 fuel
    ⟨by rw [h]; rfl, h⟩⟩

/-! ## Reachable ledgers -/

/-- On every reachable ledger each block stores its own digest and each
non-genesis block stores the hash of its predecessor. -/
theorem reachable_sealed_linked {bc : Blockchain} (hr : Reachable bc) :
    (∀ b ∈ bc.Chain, b.Hash = calculateHash b) ∧
    ∀ i, 1 ≤ i → ∀ h : i < bc.Chain.length,
      bc.Chain[i].PrevHash = bc.Chain[i - 1].Hash := by
  induction hr with
  | new d r now =>
    constructor
    · intro b hb
      simp only [NewBlockchain, List.nil_append, List.mem_singleton] at hb
      subst hb
      rfl
    · intro i hi h
      simp only [NewBlockchain, List.nil_append, List.length_singleton] at h
      omega
  | add tx _ ih => exact ih
  | @mine bc0 bc1 minerAddress clk fuel _ hret ih =>
    obtain ⟨last, sealed, hlast, rfl, -, -, -, hprev, hhash⟩ := minePendingTransactions_ret hret
    constructor
    · intro b hb
      simp only [List.mem_append, List.mem_singleton] at hb
      rcases hb with hb | rfl
      · exact ih.1 b hb
      · exact hhash
    · intro i hi h
      simp only [List.length_append, List.length_singleton] at h
      by_cases hlt : i < bc0.Chain.length
      · simp only [List.getElem_append_left hlt,
          List.getElem_append_left (show i - 1 < bc0.Chain.length by omega)]
        exact ih.2 i hi hlt
      · have hi0 : i = bc0.Chain.length := by omega
        subst hi0
        have hl : bc0.Chain[bc0.Chain.length - 1]? = some last := by
          rw [← List.getLast?_eq_getElem?]; exact hlast
        have hlt1 : bc0.Chain.length - 1 < bc0.Chain.length := by omega
        rw [List.getElem?_eq_getElem hlt1] at hl
        simp only [List.getElem_append_left hlt1, List.getElem_append_right (Nat.le_refl _),
          Nat.sub_self, List.getElem_singleton]
        rw [hprev]
        exact congrArg Block.Hash (Option.some.inj hl).symm

/-- C6. Every ledger reachable from `NewBlockchain` by `AddTransaction` calls
and returning `MinePendingTransactions` calls is valid: `IsChainValid` returns
true, every block at an index `i ≥ 1` stores the `Hash` of block `i - 1` as its
`PrevHash`, and every block, the genesis block included, stores the digest
`calculateHash` computes from it. -/
theorem C6_reachable_ledger_valid (bc : Blockchain) (hr : Reachable bc) :
    IsChainValid bc = true ∧
    (∀ i, 1 ≤ i → ∀ h : i < bc.Chain.length, bc.Chain[i].PrevHash = bc.Chain[i - 1].Hash) ∧
    (∀ i, ∀ h : i < bc.Chain.length, bc.Chain[i].Hash = calculateHash bc.Chain[i]) := by
  have inv := reachable_sealed_linked hr
  refine ⟨?_, inv.2, fun i h => inv.1 _ (List.getElem_mem h)⟩
  rw [isChainValid_iff]
  intro i hi h
  exact ⟨inv.1 _ (List.getElem_mem h), inv.2 i hi h⟩

/-- C6 (witness). The sealed scenario ledger is reachable (genesis, one
`AddTransaction`, one returning `MinePendingTransactions`) and valid. -/
theorem C6_reachable_ledger_valid_witness :
    Reachable sealedLedger ∧ sealedLedger.Chain.length = 2 ∧ IsChainValid sealedLedger = true :=
  have hr : Reachable sealedLedger :=
    Reachable.mine (lit "miner1") scenarioClock 1
      (Reachable.add aliceToBob (Reachable.new 0 ten 1699999999)) (by decide!)
  ⟨hr, by decide!, (C6_reachable_ledger_valid sealedLedger hr).1⟩

/-! ## Genesis and the pool -/

/-- C7. For every difficulty and reward, `NewBlockchain` returns a ledger whose
chain is a single block with `Index` 0, the clock reading as `Timestamp`, no
transactions, `PrevHash` the one-character string `"0"`, `Nonce` 0 and `Hash`
the digest `calculateHash` computes from it, with an empty pool and the given
`Difficulty` and `MiningReward`. The construction is a plain function of its
arguments: no nonce search takes place. -/
theorem C7_genesis (difficulty : Int) (miningReward : Float64) (now : Int) :
    (NewBlockchain difficulty miningReward now).Chain.length = 1 ∧
    (∃ g : Block, (NewBlockchain difficulty miningReward now).Chain = [g] ∧
      g.Index = 0 ∧ g.Timestamp = now ∧ g.Transactions = [] ∧ g.PrevHash = lit "0" ∧
      g.PrevHash = [48] ∧ g.Nonce = 0 ∧ g.Hash = calculateHash g) ∧
    (NewBlockchain difficulty miningReward now).PendingTransactions = [] ∧
    (NewBlockchain difficulty miningReward now).Difficulty = difficulty ∧
    (NewBlockchain difficulty miningReward now).MiningReward = miningReward ∧
    (NewBlockchain difficulty miningReward now).Nodes = [] :=
  ⟨rfl, ⟨_, rfl, rfl, rfl, rfl, rfl, (by decide : lit "0" = ([48] : GoString)), rfl, rfl⟩,
    rfl, rfl, rfl, rfl⟩

/-- C8. `AddTransaction` returns true for every ledger and every transaction
and appends the transaction at the end of the pool, whether or not an equal
transaction is already pending; the pool grows by one and nothing else of the
ledger changes. -/
theorem C8_addTransaction_appends (bc : Blockchain) (tx : Transaction) :
    (AddTransaction bc tx).1 = true ∧
    (AddTransaction bc tx).2.PendingTransactions = bc.PendingTransactions ++ [tx] ∧
    (AddTransaction bc tx).2.PendingTransactions.length = bc.PendingTransactions.length + 1 ∧
    (AddTransaction bc tx).2.Chain = bc.Chain ∧
    (AddTransaction bc tx).2.Difficulty = bc.Difficulty ∧
    (AddTransaction bc tx).2.MiningReward = bc.MiningReward ∧
    (AddTransaction bc tx).2.Nodes = bc.Nodes :=
  ⟨rfl, rfl, by simp [AddTransaction], rfl, rfl, rfl, rfl⟩

/-- C9 (counterexample). The zero-value transaction, whose `ID`, `From` and `To`
are all empty, is accepted on the scenario ledger: `AddTransaction` returns
true and the pool changes. -/
theorem C9_empty_fields_accepted :
    zeroTransaction.ID = [] ∧ zeroTransaction.From = [] ∧ zeroTransaction.To = [] ∧
    (AddTransaction (scenarioPool 2) zeroTransaction).1 = true ∧
    (AddTransaction (scenarioPool 2) zeroTransaction).2.PendingTransactions
      = [aliceToBob, zeroTransaction] ∧
    (AddTransaction (scenarioPool 2) zeroTransaction).2.PendingTransactions
      ≠ (scenarioPool 2).PendingTransactions := by
  refine ⟨rfl, rfl, rfl, rfl, rfl, ?_⟩
  intro h
  have := congrArg List.length h
  simp [AddTransaction, scenarioPool, NewBlockchain] at this

/-- C9 (amended). `AddTransaction` validates nothing: a transaction with an
empty `ID`, `From` or `To` is accepted like any other, the call returns true
and the transaction is appended at the end of the pool. -/
theorem C9_addTransaction_accepts_missing_fields (bc : Blockchain) (tx : Transaction)
    (_hmissing : tx.ID = [] ∨ tx.From = [] ∨ tx.To = []) :
    (AddTransaction bc tx).1 = true ∧
    (AddTransaction bc tx).2.PendingTransactions = bc.PendingTransactions ++ [tx] :=
  ⟨rfl, rfl⟩

/-- C9 (witness). The amended statement at the zero-value transaction. -/
theorem C9_addTransaction_accepts_missing_fields_witness :
    (zeroTransaction.ID = [] ∨ zeroTransaction.From = [] ∨ zeroTransaction.To = []) ∧
    (AddTransaction (scenarioPool 2) zeroTransaction).1 = true ∧
    (AddTransaction (scenarioPool 2) zeroTransaction).2.PendingTransactions
      = (scenarioPool 2).PendingTransactions ++ [zeroTransaction] :=
  ⟨Or.inl rfl,
    C9_addTransaction_accepts_missing_fields (scenarioPool 2) zeroTransaction (Or.inl rfl)⟩

/-! ## The digest -/

/-- C10. `calculateHash` is the hex encoding of SHA-256 of the concatenation
of `string(Index)`, `string(Timestamp)`, `PrevHash`, `string(Nonce)` and the
transaction IDs in sequence order, the integer conversion being Go's
`string(int64)`; two blocks that agree on these five inputs have the same
digest, whatever their stored `Hash` and their transactions' other fields. -/
theorem C10_calculateHash_spec :
    (∀ b : Block, calculateHash b
      = hashSpec b.Index b.Timestamp b.PrevHash b.Nonce (b.Transactions.map Transaction.ID)) ∧
    (∀ b1 b2 : Block, b1.Index = b2.Index → b1.Timestamp = b2.Timestamp →
      b1.PrevHash = b2.PrevHash → b1.Nonce = b2.Nonce →
      b1.Transactions.map Transaction.ID = b2.Transactions.map Transaction.ID →
      calculateHash b1 = calculateHash b2) := by
  have hspec : ∀ b : Block, calculateHash b
      = hashSpec b.Index b.Timestamp b.PrevHash b.Nonce (b.Transactions.map Transaction.ID) := by
    intro b
    simp only [calculateHash, hashSpec, record_eq]
  refine ⟨hspec, ?_⟩
  intro b1 b2 hI hT hP hN hIDs
  rw [hspec b1, hspec b2, hI, hT, hP, hN, hIDs]

theorem hextable_range : ∀ c ∈ hextable,
    (48 ≤ c.toNat ∧ c.toNat ≤ 57) ∨ (97 ≤ c.toNat ∧ c.toNat ≤ 102) := by
  decide

/-- C11. For every block, with or without transactions, `calculateHash` returns
a string of exactly 64 characters, each of them one of the sixteen characters
`0123456789abcdef` (byte values 48..57 and 97..102). -/
theorem C11_calculateHash_hex64 :
    hextable = lit "0123456789abcdef" ∧
    (∀ b : Block, (calculateHash b).length = 64 ∧
      ∀ c ∈ calculateHash b, c ∈ hextable ∧
        ((48 ≤ c.toNat ∧ c.toNat ≤ 57) ∨ (97 ≤ c.toNat ∧ c.toNat ≤ 102))) ∧
    (∀ b : Block, b.Transactions = [] → (calculateHash b).length = 64) := by
  refine ⟨by decide, ?_, fun b _ => calculateHash_length b⟩
  intro b
  refine ⟨calculateHash_length b, ?_⟩
  intro c hc
  have hmem := hexEncodeToString_subset _ c hc
  exact ⟨hmem, hextable_range c hmem⟩

/-- C18. The record that `calculateHash` hashes does not determine the hashed
fields. Numeric collapse: two blocks that differ only in `Timestamp`
(1700000000 and 1700000001) have the same record, three bytes `EF BF BD`
standing for either timestamp. Ambiguous boundaries: two blocks that differ in
`PrevHash`, `Nonce` and their lists of transaction IDs have the same record, and
so do two blocks whose ID lists are `["ab"]` and `["a", "b"]`. In each case
`calculateHash` returns the same digest for both blocks. -/
theorem C18_record_not_injective :
    ((stampedBlock 1700000000).Timestamp ≠ (stampedBlock 1700000001).Timestamp ∧
      intstring 1700000000 = [0xEF, 0xBF, 0xBD] ∧
      record (stampedBlock 1700000000) = record (stampedBlock 1700000001) ∧
      calculateHash (stampedBlock 1700000000) = calculateHash (stampedBlock 1700000001)) ∧
    ((boundaryBlock (lit "x") 65 [lit "B"]).PrevHash ≠ (boundaryBlock (lit "xA") 66 []).PrevHash ∧
      (boundaryBlock (lit "x") 65 [lit "B"]).Nonce ≠ (boundaryBlock (lit "xA") 66 []).Nonce ∧
      record (boundaryBlock (lit "x") 65 [lit "B"]) = record (boundaryBlock (lit "xA") 66 []) ∧
      calculateHash (boundaryBlock (lit "x") 65 [lit "B"])
        = calculateHash (boundaryBlock (lit "xA") 66 [])) ∧
    ((boundaryBlock [] 0 [lit "ab"]).Transactions.map Transaction.ID
        ≠ (boundaryBlock [] 0 [lit "a", lit "b"]).Transactions.map Transaction.ID ∧
      record (boundaryBlock [] 0 [lit "ab"]) = record (boundaryBlock [] 0 [lit "a", lit "b"]) ∧
      calculateHash (boundaryBlock [] 0 [lit "ab"])
        = calculateHash (boundaryBlock [] 0 [lit "a", lit "b"])) := by
  have h1 : record (stampedBlock 1700000000) = record (stampedBlock 1700000001) := by decide
  have h2 : record (boundaryBlock (lit "x") 65 [lit "B"])
      = record (boundaryBlock (lit "xA") 66 []) := by decide
  have h3 : record (boundaryBlock [] 0 [lit "ab"])
      = record (boundaryBlock [] 0 [lit "a", lit "b"]) := by decide
  refine ⟨⟨by decide, by decide, h1, ?_⟩, ⟨by decide, by decide, h2, ?_⟩, ⟨by decide, h3, ?_⟩⟩
  · simp only [calculateHash, h1]
  · simp only [calculateHash, h2]
  · simp only [calculateHash, h3]

/-! ## Frame and reward -/

/-- However a call of `MinePendingTransactions` ends, the chain it leaves is
the old chain with at most one block appended, the pool is either empty or the
old pool with the reward transaction appended, and the other fields are
untouched. -/
theorem minePendingTransactions_state (bc : Blockchain) (minerAddress : GoString)
    (clk : Clock) (fuel : Nat) :
    (∃ added : List Block,
      (MinePendingTransactions bc minerAddress clk fuel).state.Chain = bc.Chain ++ added ∧
      added.length ≤ 1) ∧
    (MinePendingTransactions bc minerAddress clk fuel).state.Difficulty = bc.Difficulty ∧
    (MinePendingTransactions bc minerAddress clk fuel).state.MiningReward = bc.MiningReward ∧
    (MinePendingTransactions bc minerAddress clk fuel).state.Nodes = bc.Nodes := by
  unfold MinePendingTransactions
  simp only
  split
  · exact ⟨⟨[], by simp [Exec.state], by simp⟩, rfl, rfl, rfl⟩
  · split
    · next sealed _ => exact ⟨⟨[sealed], rfl, by simp⟩, rfl, rfl, rfl⟩
    · exact ⟨⟨[], by simp [Exec.state], by simp⟩, rfl, rfl, rfl⟩
    · exact ⟨⟨[], by simp [Exec.state], by simp⟩, rfl, rfl, rfl⟩

/-- C14. The chain is append-only. `AddTransaction` leaves `Chain`,
`Difficulty` and `MiningReward` as they were. `MinePendingTransactions`,
however it ends, leaves a chain that is the old chain followed by at most one
new block, every old block unchanged, and leaves `Difficulty` and
`MiningReward` as they were. `IsChainValid` only reads the ledger: it is a
function of the ledger to a boolean, so two calls in a row on the same ledger
give the same result and there is no ledger after the call other than the one
before it. -/
theorem C14_append_only (bc : Blockchain) :
    (∀ tx : Transaction,
      (AddTransaction bc tx).2.Chain = bc.Chain ∧
      (AddTransaction bc tx).2.Difficulty = bc.Difficulty ∧
      (AddTransaction bc tx).2.MiningReward = bc.MiningReward) ∧
    (∀ (minerAddress : GoString) (clk : Clock) (fuel : Nat),
      (∃ added : List Block,
        (MinePendingTransactions bc minerAddress clk fuel).state.Chain = bc.Chain ++ added ∧
        added.length ≤ 1 ∧
        ∀ i, ∀ h : i < bc.Chain.length,
          (MinePendingTransactions bc minerAddress clk fuel).state.Chain[i]? = some bc.Chain[i]) ∧
      (MinePendingTransactions bc minerAddress clk fuel).state.Difficulty = bc.Difficulty ∧
      (MinePendingTransactions bc minerAddress clk fuel).state.MiningReward = bc.MiningReward) ∧
    (∀ bc1 : Blockchain, bc1.Chain = bc.Chain → IsChainValid bc1 = IsChainValid bc) := by
  refine ⟨fun tx => ⟨rfl, rfl, rfl⟩, ?_, ?_⟩
  · intro minerAddress clk fuel
    obtain ⟨⟨added, hadd, hlen⟩, hd, hr, -⟩ :=
      minePendingTransactions_state bc minerAddress clk fuel
    refine ⟨⟨added, hadd, hlen, ?_⟩, hd, hr⟩
    intro i h
    rw [hadd, List.getElem?_append_left h, List.getElem?_eq_getElem h]
  · intro bc1 h
    simp only [IsChainValid, h]

/-- C17. Whenever `MinePendingTransactions(m)` returns, the last transaction
of the block it appended is the reward transaction: `From` is `"SYSTEM"`, `To`
is `m`, `Amount` is the ledger's `MiningReward` and `Data` is the single entry
`"type" -> "mining_reward"`. A call that returns started from a non-empty
chain. -/
theorem C17_reward_transaction (bc bc1 : Blockchain) (minerAddress : GoString) (clk : Clock)
    (fuel : Nat) (hret : MinePendingTransactions bc minerAddress clk fuel = .ret bc1) :
    bc.Chain ≠ [] ∧
    ∃ (sealed : Block) (reward : Transaction),
      bc1.Chain.getLast? = some sealed ∧
      sealed.Transactions.getLast? = some reward ∧
      reward.From = lit "SYSTEM" ∧ reward.To = minerAddress ∧
      reward.Amount = bc.MiningReward ∧
      reward.Data = [(lit "type", Value.str (lit "mining_reward"))] := by
  obtain ⟨last, sealed, hlast, rfl, -, -, htx, -, -⟩ := minePendingTransactions_ret hret
  refine ⟨?_, sealed, rewardTx bc minerAddress clk, by simp, by simp [htx], rfl, rfl, rfl, rfl⟩
  intro hnil
  simp [hnil] at hlast

/-- C17 (witness). In the scenario the call returns and the reward goes to
`"miner1"` with amount 10. -/
theorem C17_reward_transaction_witness :
    MinePendingTransactions (scenarioPool 0) (lit "miner1") scenarioClock 1 = .ret sealedLedger ∧
    (scenarioPool 0).MiningReward = ten ∧
    ∃ (sealed : Block) (reward : Transaction),
      sealedLedger.Chain.getLast? = some sealed ∧
      sealed.Transactions.getLast? = some reward ∧
      reward.From = lit "SYSTEM" ∧ reward.To = lit "miner1" ∧
      reward.Amount = (scenarioPool 0).MiningReward ∧
      reward.Data = [(lit "type", Value.str (lit "mining_reward"))] :=
  have h : MinePendingTransactions (scenarioPool 0) (lit "miner1") scenarioClock 1
      = .ret sealedLedger := by decide!
  ⟨h, rfl,
    (C17_reward_transaction (scenarioPool 0) sealedLedger (lit "miner1") scenarioClock 1 h).2⟩

/-! ## Invariants of reachable ledgers -/

theorem reachableFrom_reachable {d : Int} {r : Float64} {now : Int} {bc : Blockchain}
    (h : ReachableFrom (NewBlockchain d r now) bc) : Reachable bc := by
  induction h with
  | start => exact Reachable.new d r now
  | add tx _ ih => exact Reachable.add tx ih
  | mine minerAddress clk fuel _ hret ih => exact Reachable.mine minerAddress clk fuel ih hret

theorem reachable_reachableFrom {bc : Blockchain} (h : Reachable bc) :
    ∃ d r now, ReachableFrom (NewBlockchain d r now) bc := by
  induction h with
  | new d r now => exact ⟨d, r, now, ReachableFrom.start⟩
  | add tx _ ih =>
    obtain ⟨d, r, now, h⟩ := ih
    exact ⟨d, r, now, ReachableFrom.add tx h⟩
  | mine minerAddress clk fuel _ hret ih =>
    obtain ⟨d, r, now, h⟩ := ih
    exact ⟨d, r, now, ReachableFrom.mine minerAddress clk fuel h hret⟩

/-- No operation changes `Difficulty` or `MiningReward`, and the chain only
grows at its end. -/
theorem reachableFrom_frame {start bc : Blockchain} (h : ReachableFrom start bc) :
    bc.Difficulty = start.Difficulty ∧ bc.MiningReward = start.MiningReward ∧
      ∃ rest, bc.Chain = start.Chain ++ rest := by
  induction h with
  | start => exact ⟨rfl, rfl, [], by simp⟩
  | add tx _ ih => exact ih
  | @mine bc0 bc1 minerAddress clk fuel _ hret ih =>
    obtain ⟨last, sealed, -, rfl, -⟩ := minePendingTransactions_ret hret
    obtain ⟨hd, hr, rest, hrest⟩ := ih
    exact ⟨hd, hr, rest ++ [sealed], by simp [hrest]⟩

theorem reachable_index {bc : Blockchain} (hr : Reachable bc) :
    ∀ i, ∀ h : i < bc.Chain.length, bc.Chain[i].Index = Int.ofNat i := by
  induction hr with
  | new d r now =>
    intro i h
    simp only [NewBlockchain, List.nil_append, List.length_singleton] at h
    obtain rfl : i = 0 := by omega
    rfl
  | add tx _ ih => exact ih
  | @mine bc0 bc1 minerAddress clk fuel _ hret ih =>
    obtain ⟨last, sealed, -, rfl, hidx, -⟩ := minePendingTransactions_ret hret
    intro i h
    simp only [List.length_append, List.length_singleton] at h
    by_cases hlt : i < bc0.Chain.length
    · simp only [List.getElem_append_left hlt]
      exact ih i hlt
    · obtain rfl : i = bc0.Chain.length := by omega
      simp only [List.getElem_append_right (Nat.le_refl _), Nat.sub_self,
        List.getElem_singleton]
      exact hidx

/-- C15. In every reachable ledger the block at position `i` has `Index` `i`
(so indices start at 0 at the genesis block and increase by one from block to
block), and the block that a returning `MinePendingTransactions` call appends
has `Index` equal to the chain length before the call. -/
theorem C15_index_is_position (bc : Blockchain) (hr : Reachable bc) :
    (∀ i, ∀ h : i < bc.Chain.length, bc.Chain[i].Index = Int.ofNat i) ∧
    (∀ i, ∀ h : i + 1 < bc.Chain.length,
      bc.Chain[i + 1].Index = bc.Chain[i].Index + 1) ∧
    (∀ (minerAddress : GoString) (clk : Clock) (fuel : Nat) (bc1 : Blockchain),
      MinePendingTransactions bc minerAddress clk fuel = .ret bc1 →
      ∃ sealed : Block, bc1.Chain = bc.Chain ++ [sealed] ∧
        sealed.Index = Int.ofNat bc.Chain.length) := by
  have hidx := reachable_index hr
  refine ⟨hidx, ?_, ?_⟩
  · intro i h
    rw [hidx (i + 1) h, hidx i (by omega)]
    simp
  · intro minerAddress clk fuel bc1 hret
    obtain ⟨last, sealed, -, rfl, hi, -⟩ := minePendingTransactions_ret hret
    exact ⟨sealed, rfl, hi⟩

/-- C15 (witness). The sealed scenario ledger: block 1 has `Index` 1. -/
theorem C15_index_is_position_witness :
    Reachable sealedLedger ∧ sealedLedger.Chain.length = 2 ∧
    ∀ i, ∀ h : i < sealedLedger.Chain.length, sealedLedger.Chain[i].Index = Int.ofNat i :=
  have hr : Reachable sealedLedger :=
    Reachable.mine (lit "miner1") scenarioClock 1
      (Reachable.add aliceToBob (Reachable.new 0 ten 1699999999)) (by decide!)
  ⟨hr, by decide!, (C15_index_is_position sealedLedger hr).1⟩

/-! ## How a mining call can end -/

theorem mineBlock_negative (bc : Blockchain) (hd : bc.Difficulty < 0) (fuel : Nat)
    (block : Block) : mineBlock bc fuel block = .panic block := by
  unfold mineBlock
  rw [if_pos hd]

theorem mineBlock_too_long (bc : Blockchain) (hd : 64 < bc.Difficulty) (fuel : Nat)
    (block : Block) :
    mineBlock bc (fuel + 1) block = .panic { block with Hash := calculateHash block } := by
  unfold mineBlock
  rw [if_neg (by omega), mineBlockLoop]
  simp only [calculateHash_length]
  rw [if_pos (by omega)]

theorem mineBlock_zero (bc : Blockchain) (hd : bc.Difficulty = 0) (fuel : Nat)
    (block : Block) :
    mineBlock bc (fuel + 1) block = .ret { block with Hash := calculateHash block } := by
  unfold mineBlock
  rw [if_neg (by omega), hd]
  exact mineBlockLoop_zero fuel block

theorem mineBlock_running (bc : Blockchain) (hd : 1 ≤ bc.Difficulty) (hl : bc.Difficulty ≤ 64)
    (fuel : Nat) (block : Block) : ∃ b, mineBlock bc fuel block = .running b := by
  unfold mineBlock
  rw [if_neg (by omega)]
  exact mineBlockLoop_running bc.Difficulty.toNat (by omega) (by omega) fuel block

theorem mineBlock_no_fuel {bc : Blockchain} {block sealed : Block}
    (h : mineBlock bc 0 block = .ret sealed) : False := by
  unfold mineBlock at h
  split at h <;> cases h

/-- A call of `mineBlock` that returns was made with difficulty 0 and stopped
in its first iteration. -/
theorem mineBlock_ret_zero {bc : Blockchain} {fuel : Nat} {block sealed : Block}
    (h : mineBlock bc fuel block = .ret sealed) :
    bc.Difficulty = 0 ∧ sealed = { block with Hash := calculateHash block } := by
  have hd : bc.Difficulty = 0 := by
    by_contra hne
    rcases lt_trichotomy bc.Difficulty 0 with hneg | hz | hpos
    · rw [mineBlock_negative bc hneg] at h; cases h
    · exact hne hz
    · by_cases hl : bc.Difficulty ≤ 64
      · obtain ⟨b, hb⟩ := mineBlock_running bc (by omega) hl fuel block
        rw [hb] at h; cases h
      · cases fuel with
        | zero => exact mineBlock_no_fuel h
        | succ n => rw [mineBlock_too_long bc (by omega)] at h; cases h
  refine ⟨hd, ?_⟩
  cases fuel with
  | zero => exact (mineBlock_no_fuel h).elim
  | succ n =>
    rw [mineBlock_zero bc hd] at h
    exact (Exec.ret.inj h).symm

/-- A panic of `MinePendingTransactions` leaves the chain as it was and the
pool with the reward transaction appended, and has one of three causes. -/
theorem minePendingTransactions_panic {bc s : Blockchain} {minerAddress : GoString}
    {clk : Clock} {fuel : Nat}
    (h : MinePendingTransactions bc minerAddress clk fuel = .panic s) :
    s = { bc with PendingTransactions :=
            bc.PendingTransactions ++ [rewardTx bc minerAddress clk] } ∧
      (bc.Chain = [] ∨ bc.Difficulty < 0 ∨ 64 < bc.Difficulty) := by
  unfold MinePendingTransactions at h
  simp only at h
  split at h
  · next hnone =>
    refine ⟨(Exec.panic.inj h).symm, Or.inl ?_⟩
    exact List.getLast?_eq_none_iff.1 hnone
  · next last hlast =>
    split at h
    · cases h
    · next b hm =>
      refine ⟨(Exec.panic.inj h).symm, Or.inr ?_⟩
      by_contra hcon
      have h0 : 0 ≤ bc.Difficulty := by omega
      have h64 : bc.Difficulty ≤ 64 := by omega
      rcases (by omega : 1 ≤ bc.Difficulty ∨ bc.Difficulty = 0) with hpos | hz
      · obtain ⟨b1, hb1⟩ := mineBlock_running
          { bc with PendingTransactions :=
            bc.PendingTransactions ++ [rewardTx bc minerAddress clk] }
          (by simpa using hpos) h64 fuel _
        rw [hb1] at hm; cases hm
      · cases fuel with
        | zero =>
          unfold mineBlock at hm
          rw [if_neg (by simp only; omega)] at hm
          cases hm
        | succ n =>
          rw [mineBlock_zero
            { bc with PendingTransactions :=
              bc.PendingTransactions ++ [rewardTx bc minerAddress clk] } hz] at hm
          cases hm
    · cases h

/-- With an empty chain, a negative difficulty or a difficulty above 64 the
call panics (at the latest in the first iteration of the search). -/
theorem minePendingTransactions_panics (bc : Blockchain) (minerAddress : GoString)
    (clk : Clock) (fuel : Nat)
    (h : bc.Chain = [] ∨ bc.Difficulty < 0 ∨ 64 < bc.Difficulty) :
    MinePendingTransactions bc minerAddress clk (fuel + 1) = .panic
      { bc with PendingTransactions :=
          bc.PendingTransactions ++ [rewardTx bc minerAddress clk] } := by
  unfold MinePendingTransactions
  simp only
  cases hc : bc.Chain.getLast? with
  | none => rfl
  | some last =>
    have hne : bc.Chain ≠ [] := by
      intro hnil; simp [hnil] at hc
    simp only
    rcases h with h | h | h
    · exact absurd h hne
    · rw [mineBlock_negative _ (by simpa using h)]
    · rw [mineBlock_too_long _ (by simpa using h)]

theorem isChainValidFromChecked_eq (chain : List Block) :
    ∀ n i, 1 ≤ i → i + n ≤ chain.length →
      isChainValidFromChecked chain i n = some (isChainValidFrom chain i n) := by
  intro n
  induction n with
  | zero => intro i _ _; rfl
  | succ n ih =>
    intro i hi hlen
    have h1 : i < chain.length := by omega
    have h0 : i - 1 < chain.length := by omega
    rw [isChainValidFromChecked, isChainValidFrom, List.getElem?_eq_getElem h1,
      List.getElem?_eq_getElem h0]
    simp only
    split
    · rfl
    · split
      · rfl
      · exact ih (i + 1) (by omega) (by omega)

/-- The index expressions of `IsChainValid` are always in range. -/
theorem isChainValidChecked_eq (bc : Blockchain) :
    IsChainValidChecked bc = some (IsChainValid bc) := by
  rcases Nat.eq_zero_or_pos bc.Chain.length with h0 | hpos
  · simp [IsChainValidChecked, IsChainValid, h0, isChainValidFromChecked, isChainValidFrom]
  · exact isChainValidFromChecked_eq bc.Chain (bc.Chain.length - 1) 1 (Nat.le_refl 1) (by omega)

/-- C12 (counterexample). On the scenario ledger with difficulty 65 the call
panics in the first iteration of the search: the chain is unchanged, and the
pool, `[aliceToBob]` before the call, holds the reward transaction as well. -/
theorem C12_panic_leaves_reward_in_pool :
    (scenarioPool 65).Difficulty = 65 ∧
    (∃ s, MinePendingTransactions (scenarioPool 65) (lit "miner1") scenarioClock 1 = .panic s ∧
      s.Chain = (scenarioPool 65).Chain ∧
      (scenarioPool 65).PendingTransactions = [aliceToBob] ∧
      s.PendingTransactions
        = [aliceToBob, rewardTx (scenarioPool 65) (lit "miner1") scenarioClock] ∧
      s.PendingTransactions ≠ (scenarioPool 65).PendingTransactions) := by
  refine ⟨rfl, _, minePendingTransactions_panics (scenarioPool 65) (lit "miner1") scenarioClock 0
    (Or.inr (Or.inr (by decide))), rfl, rfl, rfl, ?_⟩
  intro h
  have := congrArg List.length h
  simp [scenarioPool, AddTransaction, NewBlockchain] at this

/-- C12 (amended). A call of `MinePendingTransactions` that returns has
appended one sealed block holding the old pool followed by the reward
transaction, and has emptied the pool. A call that panics leaves the chain
unchanged and the pool equal to the old pool followed by the reward
transaction; it panics exactly when the chain is empty, the difficulty is
negative or the difficulty exceeds 64. -/
theorem C12_mine_returns_or_panics (bc : Blockchain) (minerAddress : GoString) (clk : Clock)
    (fuel : Nat) :
    (∀ bc1, MinePendingTransactions bc minerAddress clk fuel = .ret bc1 →
      ∃ sealed : Block, bc1.Chain = bc.Chain ++ [sealed] ∧ bc1.PendingTransactions = [] ∧
        sealed.Hash = calculateHash sealed ∧
        sealed.Transactions = bc.PendingTransactions ++ [rewardTx bc minerAddress clk]) ∧
    (∀ s, MinePendingTransactions bc minerAddress clk fuel = .panic s →
      s.Chain = bc.Chain ∧
      s.PendingTransactions = bc.PendingTransactions ++ [rewardTx bc minerAddress clk] ∧
      (bc.Chain = [] ∨ bc.Difficulty < 0 ∨ 64 < bc.Difficulty)) ∧
    ((bc.Chain = [] ∨ bc.Difficulty < 0 ∨ 64 < bc.Difficulty) →
      ∃ s, MinePendingTransactions bc minerAddress clk (fuel + 1) = .panic s) := by
  refine ⟨?_, ?_, ?_⟩
  · intro bc1 hret
    obtain ⟨last, sealed, -, rfl, -, -, htx, -, hhash⟩ := minePendingTransactions_ret hret
    exact ⟨sealed, rfl, rfl, hhash, htx⟩
  · intro s hp
    obtain ⟨rfl, hcause⟩ := minePendingTransactions_panic hp
    exact ⟨rfl, rfl, hcause⟩
  · intro h
    exact ⟨_, minePendingTransactions_panics bc minerAddress clk fuel h⟩

/-- C13 (counterexample). On the ledger `NewBlockchain(65, 10)` and on the
ledger `NewBlockchain(-1, 10)` the call `MinePendingTransactions("miner1")`
panics. -/
theorem C13_mining_panics_out_of_bounds :
    (∃ s, MinePendingTransactions (NewBlockchain 65 ten 1699999999) (lit "miner1")
      scenarioClock 1 = .panic s) ∧
    (∃ s, MinePendingTransactions (NewBlockchain (-1) ten 1699999999) (lit "miner1")
      scenarioClock 1 = .panic s) :=
  ⟨⟨_, minePendingTransactions_panics _ _ _ 0 (Or.inr (Or.inr (by decide)))⟩,
    ⟨_, minePendingTransactions_panics _ _ _ 0 (Or.inr (Or.inl (by decide)))⟩⟩

/-- C13 (amended). On a ledger obtained from `NewBlockchain(d, r)` by
`AddTransaction` calls and returning `MinePendingTransactions` calls:
`Difficulty` is `d`; the index expressions of `IsChainValid` are in range;
`AddTransaction` yields such a ledger again; a call of
`MinePendingTransactions` panics exactly when `d < 0` (negative length of the
target) or `d > 64` (slice bound beyond the 64 characters of the hash); so for
`0 ≤ d ≤ 64` no call panics. -/
theorem C13_panic_iff_difficulty_out_of_bounds (d : Int) (r : Float64) (now : Int)
    (bc : Blockchain) (h : ReachableFrom (NewBlockchain d r now) bc) :
    bc.Difficulty = d ∧
    IsChainValidChecked bc = some (IsChainValid bc) ∧
    (∀ tx : Transaction, ReachableFrom (NewBlockchain d r now) (AddTransaction bc tx).2) ∧
    (∀ (minerAddress : GoString) (clk : Clock) (fuel : Nat),
      (∃ s, MinePendingTransactions bc minerAddress clk (fuel + 1) = .panic s)
        ↔ (d < 0 ∨ 64 < d)) ∧
    (0 ≤ d → d ≤ 64 →
      ∀ (minerAddress : GoString) (clk : Clock) (fuel : Nat) (s : Blockchain),
        MinePendingTransactions bc minerAddress clk fuel ≠ .panic s) := by
  obtain ⟨hd, -, rest, hrest⟩ := reachableFrom_frame h
  have hd : bc.Difficulty = d := hd
  have hne : bc.Chain ≠ [] := by
    rw [hrest]; simp [NewBlockchain]
  have hcause : ∀ (minerAddress : GoString) (clk : Clock) (fuel : Nat) (s : Blockchain),
      MinePendingTransactions bc minerAddress clk fuel = .panic s → d < 0 ∨ 64 < d := by
    intro minerAddress clk fuel s hp
    rcases (minePendingTransactions_panic hp).2 with hc | hc | hc
    · exact absurd hc hne
    · exact Or.inl (hd ▸ hc)
    · exact Or.inr (hd ▸ hc)
  refine ⟨hd, isChainValidChecked_eq bc, fun tx => ReachableFrom.add tx h, ?_, ?_⟩
  · intro minerAddress clk fuel
    constructor
    · rintro ⟨s, hp⟩
      exact hcause minerAddress clk (fuel + 1) s hp
    · intro hb
      refine ⟨_, minePendingTransactions_panics bc minerAddress clk fuel (Or.inr ?_)⟩
      rw [hd]; exact hb
  · intro h0 h64 minerAddress clk fuel s hp
    have := hcause minerAddress clk fuel s hp
    omega

/-- C13 (witness). The scenario ledger of difficulty 2: no mining call on it
panics. -/
theorem C13_panic_iff_difficulty_out_of_bounds_witness :
    ReachableFrom (NewBlockchain 2 ten 1699999999) (scenarioPool 2) ∧
    ∀ (minerAddress : GoString) (clk : Clock) (fuel : Nat) (s : Blockchain),
      MinePendingTransactions (scenarioPool 2) minerAddress clk fuel ≠ .panic s :=
  have h : ReachableFrom (NewBlockchain 2 ten 1699999999) (scenarioPool 2) :=
    ReachableFrom.add aliceToBob ReachableFrom.start
  ⟨h, (C13_panic_iff_difficulty_out_of_bounds 2 ten 1699999999 (scenarioPool 2) h).2.2.2.2
    (by decide) (by decide)⟩

/-- C19. Every ledger obtained from `NewBlockchain(d, r)` by `AddTransaction`
calls and returning `MinePendingTransactions` calls has at least one block, its
chain starts with the genesis block that `NewBlockchain` created, and its last
block `bc.Chain[len(bc.Chain)-1]` exists: a panic of `MinePendingTransactions`
on it never comes from that index expression, only from the difficulty. -/
theorem C19_chain_never_empty (d : Int) (r : Float64) (now : Int) (bc : Blockchain)
    (h : ReachableFrom (NewBlockchain d r now) bc) :
    1 ≤ bc.Chain.length ∧
    (∃ rest, bc.Chain = (NewBlockchain d r now).Chain ++ rest) ∧
    bc.Chain.head? = (NewBlockchain d r now).Chain.head? ∧
    (∃ last, bc.Chain[bc.Chain.length - 1]? = some last ∧ bc.Chain.getLast? = some last) ∧
    (∀ (minerAddress : GoString) (clk : Clock) (fuel : Nat) (s : Blockchain),
      MinePendingTransactions bc minerAddress clk fuel = .panic s →
        bc.Difficulty < 0 ∨ 64 < bc.Difficulty) := by
  obtain ⟨-, -, rest, hrest⟩ := reachableFrom_frame h
  have hlen : 1 ≤ bc.Chain.length := by
    rw [hrest]; simp [NewBlockchain]
  have hne : bc.Chain ≠ [] := by
    intro hnil; rw [hnil] at hlen; simp at hlen
  have hlast : ∃ last, bc.Chain.getLast? = some last := by
    cases hc : bc.Chain.getLast? with
    | none => exact absurd (List.getLast?_eq_none_iff.1 hc) hne
    | some last => exact ⟨last, rfl⟩
  refine ⟨hlen, ⟨rest, hrest⟩, ?_, ?_, ?_⟩
  · rw [hrest]; simp [NewBlockchain]
  · obtain ⟨last, hl⟩ := hlast
    exact ⟨last, by rw [← List.getLast?_eq_getElem?]; exact hl, hl⟩
  · intro minerAddress clk fuel s hp
    rcases (minePendingTransactions_panic hp).2 with hc | hc | hc
    · exact absurd hc hne
    · exact Or.inl hc
    · exact Or.inr hc

/-- C19 (witness). The sealed scenario ledger, obtained from
`NewBlockchain(0, 10)`, has two blocks, the first of them the genesis block. -/
theorem C19_chain_never_empty_witness :
    ReachableFrom (NewBlockchain 0 ten 1699999999) sealedLedger ∧
    1 ≤ sealedLedger.Chain.length ∧
    sealedLedger.Chain.head? = (NewBlockchain 0 ten 1699999999).Chain.head? :=
  have h : ReachableFrom (NewBlockchain 0 ten 1699999999) sealedLedger :=
    ReachableFrom.mine (lit "miner1") scenarioClock 1
      (ReachableFrom.add aliceToBob ReachableFrom.start) (by decide!)
  ⟨h, (C19_chain_never_empty 0 ten 1699999999 sealedLedger h).1,
    (C19_chain_never_empty 0 ten 1699999999 sealedLedger h).2.2.1⟩

/-! ## The pool and the sealed blocks -/

/-- C16 (counterexample). A reachable ledger (difficulty 0: genesis,
`AddTransaction(paidTx)`, a returning mining call, `AddTransaction(paidTx)`
again) whose pool holds a transaction that block 1 already contains. -/
theorem C16_sealed_transaction_requeued :
    Reachable requeuedLedger ∧
    requeuedLedger.PendingTransactions = [paidTx] ∧
    (∃ b ∈ requeuedLedger.Chain, paidTx ∈ b.Transactions) ∧
    (∃ p ∈ requeuedLedger.PendingTransactions, ∃ b ∈ requeuedLedger.Chain,
      ∃ t ∈ b.Transactions, t.ID = p.ID) := by
  refine ⟨?_, by decide!, by decide!, by decide!⟩
  exact Reachable.add paidTx
    (Reachable.mine (lit "miner1") scenarioClock 1
      (Reachable.add paidTx (Reachable.new 0 ten 1699999999)) (by decide!))

/-- C16 (amended). In every ledger reachable from `NewBlockchain` by returning
`MinePendingTransactions` calls and by `AddTransaction` calls whose
transaction has an `ID` that occurs in no block of the chain at the time of the
call, no pending transaction has the `ID` of a transaction of a block of the
chain. -/
theorem C16_pending_not_sealed (bc : Blockchain) (h : ReachableFresh bc) :
    ∀ p ∈ bc.PendingTransactions, ∀ b ∈ bc.Chain, ∀ t ∈ b.Transactions, t.ID ≠ p.ID := by
  induction h with
  | new d r now =>
    intro p hp
    simp [NewBlockchain] at hp
  | add tx _ hfresh ih =>
    intro p hp b hb t ht
    simp only [AddTransaction, List.mem_append, List.mem_singleton] at hp hb
    rcases hp with hp | rfl
    · exact ih p hp b hb t ht
    · exact hfresh b hb t ht
  | @mine bc0 bc1 minerAddress clk fuel _ hret ih =>
    obtain ⟨last, sealed, -, rfl, -⟩ := minePendingTransactions_ret hret
    intro p hp
    simp at hp

/-- C16 (witness). The sealed scenario ledger with a transaction of the new
identifier `"tx_2"` queued: its pool shares no identifier with its blocks. -/
theorem C16_pending_not_sealed_witness :
    ReachableFresh freshLedger ∧ freshLedger.PendingTransactions.length = 1 ∧
    freshLedger.Chain.length = 2 ∧
    ∀ p ∈ freshLedger.PendingTransactions, ∀ b ∈ freshLedger.Chain,
      ∀ t ∈ b.Transactions, t.ID ≠ p.ID :=
  have h : ReachableFresh freshLedger :=
    ReachableFresh.add { aliceToBob with ID := lit "tx_2" }
      (ReachableFresh.mine (lit "miner1") scenarioClock 1
        (ReachableFresh.add aliceToBob (ReachableFresh.new 0 ten 1699999999) (by decide!))
        (by decide!))
      (by decide!)
  ⟨h, by decide!, by decide!, C16_pending_not_sealed freshLedger h⟩

/-! ## The order of the nonce search -/

theorem nonceAfter_shift (start : Int) (k : Nat) :
    nonceAfter start (k + 1) = nonceAfter (wrapInt64 (start + 1)) k := by
  induction k with
  | zero => rfl
  | succ k ih =>
    rw [nonceAfter, ih]
    rfl

theorem nonceAfter_zero (k : Nat) (hk : k < 2 ^ 63) : nonceAfter 0 k = Int.ofNat k := by
  induction k with
  | zero => rfl
  | succ k ih =>
    rw [nonceAfter, ih (by omega)]
    unfold wrapInt64
    simp only [Int.ofNat_eq_coe]
    omega

/-- The loop of `mineBlock` tries the nonces in the order in which
`block.Nonce++` produces them and stops at the first one that passes the exit
test, whatever the difficulty and the target. -/
theorem mineBlockLoop_least {d : Nat} {target : GoString} :
    ∀ (fuel : Nat) (block sealed : Block),
      mineBlockLoop d target fuel block = .ret sealed →
      ∃ n, n < fuel ∧
        sealed = { block with
          Nonce := nonceAfter block.Nonce n,
          Hash := calculateHash { block with Nonce := nonceAfter block.Nonce n } } ∧
        exitTest (calculateHash { block with Nonce := nonceAfter block.Nonce n }) d target
          = true ∧
        ∀ k, k < n →
          exitTest (calculateHash { block with Nonce := nonceAfter block.Nonce k }) d target
            = false := by
  intro fuel
  induction fuel with
  | zero => intro block sealed h; simp [mineBlockLoop] at h
  | succ m ih =>
    intro block sealed h
    rw [mineBlockLoop] at h
    simp only at h
    split at h
    · cases h
    · split at h
      · next hex =>
        cases h
        exact ⟨0, Nat.succ_pos m, rfl, hex, fun k hk => absurd hk (Nat.not_lt_zero k)⟩
      · next hex =>
        obtain ⟨n, hn, hs, hpass, hfail⟩ := ih _ _ h
        refine ⟨n + 1, Nat.succ_lt_succ hn, ?_, ?_, ?_⟩
        · rw [hs, nonceAfter_shift]
          rfl
        · rw [nonceAfter_shift]
          exact hpass
        · intro k hk
          cases k with
          | zero => simpa using hex
          | succ k =>
            rw [nonceAfter_shift]
            exact hfail k (by omega)

/-- The loop of `mineBlock` finds the first passing nonce: if the candidate
passes the exit test after `n` executions of `block.Nonce++` and after no
smaller number of them, the loop returns in iteration `n + 1` with that nonce
and the hash recomputed for it. -/
theorem mineBlockLoop_finds {d : Nat} {target : GoString} (hd : d ≤ 64) :
    ∀ (n fuel : Nat) (block : Block), n < fuel →
      exitTest (calculateHash { block with Nonce := nonceAfter block.Nonce n }) d target = true →
      (∀ k, k < n →
        exitTest (calculateHash { block with Nonce := nonceAfter block.Nonce k }) d target
          = false) →
      mineBlockLoop d target fuel block = .ret
        { block with
          Nonce := nonceAfter block.Nonce n,
          Hash := calculateHash { block with Nonce := nonceAfter block.Nonce n } } := by
  intro n
  induction n with
  | zero =>
    intro fuel block hfuel hpass _
    obtain ⟨m, rfl⟩ : ∃ m, fuel = m + 1 := ⟨fuel - 1, by omega⟩
    have hp : exitTest (calculateHash block) d target = true := hpass
    rw [mineBlockLoop]
    simp only [calculateHash_length]
    rw [if_neg (by omega), if_pos hp]
    rfl
  | succ n ih =>
    intro fuel block hfuel hpass hfail
    obtain ⟨m, rfl⟩ : ∃ m, fuel = m + 1 := ⟨fuel - 1, by omega⟩
    have hf : exitTest (calculateHash block) d target = false := hfail 0 (Nat.succ_pos n)
    rw [mineBlockLoop]
    simp only [calculateHash_length]
    rw [if_neg (by omega), if_neg (by rw [hf]; simp)]
    have hrec := ih m
      { block with Hash := calculateHash block, Nonce := wrapInt64 (block.Nonce + 1) }
      (by omega)
      (by rw [nonceAfter_shift] at hpass; exact hpass)
      (by
        intro k hk
        have := hfail (k + 1) (by omega)
        rw [nonceAfter_shift] at this
        exact this)
    rw [hrec, nonceAfter_shift]
    rfl

/-- C20. The nonce search tries the nonces 0, 1, 2, ... in this order and
stops at the first one that passes the exit test.
* For `mineBlock` as coded and any iteration budget: when it stops on a
  candidate whose `Nonce` starts at 0, the final `Nonce` is non-negative, the
  candidate with that nonce passes the exit test, every smaller non-negative
  nonce fails it, and the stored `Hash` is `calculateHash` of the candidate with
  the final nonce. (With the target that `mineBlock` builds this happens at
  difficulty 0 only, with final nonce 0; the next two parts are about the loop
  itself.)
* For the loop of `mineBlock` with any difficulty and any target, within the
  first `2^63` iterations (before `Nonce++` wraps around): the same, and the
  final nonce is below the number of iterations run.
* Conversely the loop does find the least passing nonce: if the candidate with
  nonce `n < 2^63` passes the exit test and every smaller one fails it, the loop
  returns in iteration `n + 1` with `Nonce = n` and the hash of that candidate. -/
theorem C20_least_nonce :
    (∀ (bc : Blockchain) (fuel : Nat) (block sealed : Block),
      block.Nonce = 0 → mineBlock bc fuel block = .ret sealed →
      0 ≤ sealed.Nonce ∧
      exitTest (calculateHash { block with Nonce := sealed.Nonce }) bc.Difficulty.toNat
        (List.replicate bc.Difficulty.toNat 0) = true ∧
      (∀ k : Int, 0 ≤ k → k < sealed.Nonce →
        exitTest (calculateHash { block with Nonce := k }) bc.Difficulty.toNat
          (List.replicate bc.Difficulty.toNat 0) = false) ∧
      sealed = { block with
        Nonce := sealed.Nonce, Hash := calculateHash { block with Nonce := sealed.Nonce } }) ∧
    (∀ (d : Nat) (target : GoString) (fuel : Nat) (block sealed : Block),
      block.Nonce = 0 → fuel ≤ 2 ^ 63 → mineBlockLoop d target fuel block = .ret sealed →
      0 ≤ sealed.Nonce ∧ sealed.Nonce < Int.ofNat fuel ∧
      exitTest (calculateHash { block with Nonce := sealed.Nonce }) d target = true ∧
      (∀ k : Int, 0 ≤ k → k < sealed.Nonce →
        exitTest (calculateHash { block with Nonce := k }) d target = false) ∧
      sealed = { block with
        Nonce := sealed.Nonce, Hash := calculateHash { block with Nonce := sealed.Nonce } }) ∧
    (∀ (d : Nat) (target : GoString) (block : Block) (n : Nat),
      block.Nonce = 0 → n < 2 ^ 63 → d ≤ 64 →
      exitTest (calculateHash { block with Nonce := Int.ofNat n }) d target = true →
      (∀ k : Nat, k < n →
        exitTest (calculateHash { block with Nonce := Int.ofNat k }) d target = false) →
      ∀ fuel : Nat, n < fuel →
        mineBlockLoop d target fuel block = .ret
          { block with
            Nonce := Int.ofNat n,
            Hash := calculateHash { block with Nonce := Int.ofNat n } }) := by
  have sound : ∀ (d : Nat) (target : GoString) (fuel : Nat) (block sealed : Block),
      block.Nonce = 0 → fuel ≤ 2 ^ 63 → mineBlockLoop d target fuel block = .ret sealed →
      0 ≤ sealed.Nonce ∧ sealed.Nonce < Int.ofNat fuel ∧
      exitTest (calculateHash { block with Nonce := sealed.Nonce }) d target = true ∧
      (∀ k : Int, 0 ≤ k → k < sealed.Nonce →
        exitTest (calculateHash { block with Nonce := k }) d target = false) ∧
      sealed = { block with
        Nonce := sealed.Nonce,
        Hash := calculateHash { block with Nonce := sealed.Nonce } } := by
    intro d target fuel block sealed h0 hfuel hret
    obtain ⟨n, hn, hs, hpass, hfail⟩ := mineBlockLoop_least fuel block sealed hret
    have hnonce : sealed.Nonce = Int.ofNat n := by
      rw [hs]
      simp only
      rw [h0]
      exact nonceAfter_zero n (by omega)
    rw [h0, nonceAfter_zero n (by omega)] at hpass
    refine ⟨by rw [hnonce]; exact Int.ofNat_nonneg n,
      by rw [hnonce]; simp only [Int.ofNat_eq_coe]; omega,
      by rw [hnonce]; exact hpass, ?_, ?_⟩
    · intro k hk hlt
      rw [hnonce] at hlt
      have hk1 : k.toNat < n := by
        simp only [Int.ofNat_eq_coe] at hlt
        omega
      have := hfail k.toNat hk1
      rw [h0, nonceAfter_zero k.toNat (by omega)] at this
      have hkk : Int.ofNat k.toNat = k := by
        simp only [Int.ofNat_eq_coe]
        omega
      rw [hkk] at this
      exact this
    · rw [hnonce]
      rw [hs, h0, nonceAfter_zero n (by omega)]
  refine ⟨?_, sound, ?_⟩
  · intro bc fuel block sealed h0 hret
    obtain ⟨hd, hs⟩ := mineBlock_ret_zero hret
    have hnonce : sealed.Nonce = 0 := by rw [hs]; exact h0
    refine ⟨by omega, ?_, ?_, ?_⟩
    · rw [hd]; simp [exitTest]
    · intro k hk hlt; omega
    · rw [hnonce, hs, ← h0]
  · intro d target block n h0 hn hd hpass hfail fuel hfuel
    have hp := mineBlockLoop_finds hd n fuel block hfuel
      (by rw [h0, nonceAfter_zero n hn]; exact hpass)
      (by
        intro k hk
        rw [h0, nonceAfter_zero k (by omega)]
        exact hfail k hk)
    rw [hp, h0, nonceAfter_zero n hn]

theorem stampedBlock_search :
    mineBlockLoop 1 (lit "0") 14 (stampedBlock 1700000000)
      = .ret { stampedBlock 1700000000 with
          Nonce := 13,
          Hash := calculateHash { stampedBlock 1700000000 with Nonce := 13 } } := by
  decide!

/-- C20 (witness). The loop with difficulty 1 and the target `"0"` on a
candidate block whose `Nonce` starts at 0: it returns in iteration 14 with
`Nonce` 13, whose digest starts with the character `0`; the candidates with the
nonces 0 to 12 all fail the exit test; any budget above 13 iterations gives the
same result. With the target that `mineBlock` builds for difficulty 0 the
scenario's candidate is sealed with nonce 0. -/
theorem C20_least_nonce_witness :
    (stampedBlock 1700000000).Nonce = 0 ∧
    mineBlockLoop 1 (lit "0") 14 (stampedBlock 1700000000)
      = .ret { stampedBlock 1700000000 with
          Nonce := 13,
          Hash := calculateHash { stampedBlock 1700000000 with Nonce := 13 } } ∧
    exitTest (calculateHash { stampedBlock 1700000000 with Nonce := 13 }) 1 (lit "0") = true ∧
    (∀ k : Int, 0 ≤ k → k < 13 →
      exitTest (calculateHash { stampedBlock 1700000000 with Nonce := k }) 1 (lit "0")
        = false) ∧
    (∀ fuel : Nat, 13 < fuel →
      mineBlockLoop 1 (lit "0") fuel (stampedBlock 1700000000)
        = .ret { stampedBlock 1700000000 with
            Nonce := 13,
            Hash := calculateHash { stampedBlock 1700000000 with Nonce := 13 } }) ∧
    mineBlock (scenarioPool 0) 1 (scenarioCandidate 0)
      = .ret { scenarioCandidate 0 with Hash := calculateHash (scenarioCandidate 0) } :=
  have hs := C20_least_nonce.2.1 1 (lit "0") 14 (stampedBlock 1700000000) _ rfl (by decide)
    stampedBlock_search
  ⟨rfl, stampedBlock_search, hs.2.2.1, hs.2.2.2.1,
    C20_least_nonce.2.2 1 (lit "0") (stampedBlock 1700000000) 13 rfl (by decide) (by decide)
      hs.2.2.1 (fun k hk => hs.2.2.2.1 (Int.ofNat k) (Int.ofNat_nonneg k) (Int.ofNat_lt.2 hk)),
    mineBlock_zero (scenarioPool 0) rfl 0 (scenarioCandidate 0)⟩

/-! ## Link fields, timestamps and difficulty 0 -/

/-- C21. On a ledger on which `IsChainValid` returns true, replacing the `Hash`
or the `PrevHash` of a non-genesis block by any different string, all else
unchanged, yields a ledger on which `IsChainValid` returns false. Nothing about
SHA-256 is used: the stored hash no longer equals the recomputed one, or the
link to the previous block is broken. -/
theorem C21_link_fields_tamper_evident (bc : Blockchain) (i : Nat) (hi : 1 ≤ i)
    (h : i < bc.Chain.length) (hv : IsChainValid bc = true) :
    (∀ x : GoString, x ≠ bc.Chain[i].Hash →
      IsChainValid { bc with Chain := bc.Chain.set i { bc.Chain[i] with Hash := x } } = false) ∧
    (∀ x : GoString, x ≠ bc.Chain[i].PrevHash →
      IsChainValid { bc with Chain := bc.Chain.set i { bc.Chain[i] with PrevHash := x } }
        = false) := by
  have hold := (isChainValid_iff bc).1 hv i hi h
  constructor
  · intro x hx
    rw [← Bool.not_eq_true, isChainValid_set bc i hi h hv]
    rintro ⟨H, -, -⟩
    have H1 : x = calculateHash bc.Chain[i] := H
    exact hx (H1.trans hold.1.symm)
  · intro x hx
    rw [← Bool.not_eq_true, isChainValid_set bc i hi h hv]
    rintro ⟨-, H, -⟩
    have H1 : x = bc.Chain[i - 1].Hash := H
    exact hx (H1.trans hold.2.symm)

/-- C21 (witness). Block 1 of the sealed scenario ledger: overwriting its
`Hash` by the empty string, or its `PrevHash` by the string `"0"`, makes
`IsChainValid` return false. -/
theorem C21_link_fields_tamper_evident_witness :
    IsChainValid sealedLedger = true ∧
    ∃ h : 1 < sealedLedger.Chain.length,
      ([] : GoString) ≠ sealedLedger.Chain[1].Hash ∧
      lit "0" ≠ sealedLedger.Chain[1].PrevHash ∧
      IsChainValid { sealedLedger with
        Chain := sealedLedger.Chain.set 1 { sealedLedger.Chain[1] with Hash := [] } } = false ∧
      IsChainValid { sealedLedger with
        Chain := sealedLedger.Chain.set 1 { sealedLedger.Chain[1] with PrevHash := lit "0" } }
          = false :=
  have hv : IsChainValid sealedLedger = true := by decide!
  have hl : 1 < sealedLedger.Chain.length := by decide!
  have h1 : ∀ hl : 1 < sealedLedger.Chain.length,
      ([] : GoString) ≠ sealedLedger.Chain[1].Hash := by decide!
  have h2 : ∀ hl : 1 < sealedLedger.Chain.length,
      lit "0" ≠ sealedLedger.Chain[1].PrevHash := by decide!
  ⟨hv, hl, h1 hl, h2 hl,
    (C21_link_fields_tamper_evident sealedLedger 1 (Nat.le_refl 1) hl hv).1 [] (h1 hl),
    (C21_link_fields_tamper_evident sealedLedger 1 (Nat.le_refl 1) hl hv).2 (lit "0") (h2 hl)⟩

/-- Every integer above `0x10FFFF` converts to the encoding of U+FFFD. -/
theorem intstring_large (v : Int) (hv : 0x10FFFF < v) : intstring v = [0xEF, 0xBF, 0xBD] := by
  have h1 : ¬ v < 0 := by omega
  have h2 : ¬ v.toNat ≤ 0x7F := by omega
  have h3 : ¬ v.toNat ≤ 0x7FF := by omega
  have h4 : v.toNat > 0x10FFFF ∨ (0xD800 ≤ v.toNat ∧ v.toNat ≤ 0xDFFF) := Or.inl (by omega)
  unfold intstring
  rw [if_neg h1]
  simp only
  rw [if_neg h2, if_neg h3, if_pos h4]
  decide

/-- Replacing a block by one with the same stored `Hash`, the same `PrevHash`
and the same digest does not change the result of `IsChainValid`. -/
theorem isChainValid_set_same (bc : Blockchain) (i : Nat) (h : i < bc.Chain.length) (b : Block)
    (hH : b.Hash = bc.Chain[i].Hash) (hP : b.PrevHash = bc.Chain[i].PrevHash)
    (hC : calculateHash b = calculateHash bc.Chain[i]) :
    IsChainValid { bc with Chain := bc.Chain.set i b } = IsChainValid bc := by
  have key : ∀ j, ∀ hj : j < bc.Chain.length, ∀ hs : j < (bc.Chain.set i b).length,
      (bc.Chain.set i b)[j].Hash = bc.Chain[j].Hash ∧
      (bc.Chain.set i b)[j].PrevHash = bc.Chain[j].PrevHash ∧
      calculateHash (bc.Chain.set i b)[j] = calculateHash bc.Chain[j] := by
    intro j hj hs
    rw [List.getElem_set]
    split
    · next hij => subst hij; exact ⟨hH, hP, hC⟩
    · exact ⟨rfl, rfl, rfl⟩
  rw [Bool.eq_iff_iff, isChainValid_iff, isChainValid_iff]
  constructor
  · intro H j hj hjl
    have := H j hj (by simpa using hjl)
    obtain ⟨k1, k2, k3⟩ := key j hjl (by simpa using hjl)
    obtain ⟨m1, -, -⟩ := key (j - 1) (by omega) (by simp only [List.length_set]; omega)
    simp only at this
    rw [k1, k2, k3, m1] at this
    exact this
  · intro H j hj hjl
    have hjl0 : j < bc.Chain.length := by simpa using hjl
    have := H j hj hjl0
    obtain ⟨k1, k2, k3⟩ := key j hjl0 hjl
    obtain ⟨m1, -, -⟩ := key (j - 1) (by omega) (by simp only [List.length_set]; omega)
    simp only
    rw [k1, k2, k3, m1]
    exact this

/-- C22. The digest does not depend on the value of a timestamp above
`0x10FFFF` (1114111): two blocks that differ only in `Timestamp`, both
timestamps above that bound, have the same digest, since `string(Timestamp)` is
the encoding of U+FFFD for both. Rewriting the `Timestamp` of a block of the
chain from one such value to another leaves the result of `IsChainValid`
unchanged; so does it on the sealed scenario ledger, whose block 1 is
restamped from 1700000001 to 1800000000. -/
theorem C22_timestamp_not_hashed :
    (∀ (b : Block) (t1 t2 : Int), 0x10FFFF < t1 → 0x10FFFF < t2 →
      calculateHash { b with Timestamp := t1 } = calculateHash { b with Timestamp := t2 }) ∧
    (∀ (bc : Blockchain) (i : Nat) (h : i < bc.Chain.length) (t : Int),
      0x10FFFF < bc.Chain[i].Timestamp → 0x10FFFF < t →
      IsChainValid { bc with Chain := bc.Chain.set i { bc.Chain[i] with Timestamp := t } }
        = IsChainValid bc) ∧
    (restampedLedger 1800000000 ≠ sealedLedger ∧
      IsChainValid (restampedLedger 1800000000) = true ∧ IsChainValid sealedLedger = true) := by
  have hdig : ∀ (b : Block) (t1 t2 : Int), 0x10FFFF < t1 → 0x10FFFF < t2 →
      calculateHash { b with Timestamp := t1 } = calculateHash { b with Timestamp := t2 } := by
    intro b t1 t2 h1 h2
    simp only [calculateHash, record_eq, intstring_large t1 h1, intstring_large t2 h2]
  refine ⟨hdig, ?_, by decide!, by decide!, by decide!⟩
  intro bc i h t hold hnew
  exact isChainValid_set_same bc i h _ rfl rfl (hdig bc.Chain[i] t bc.Chain[i].Timestamp hnew hold)

theorem minePendingTransactions_zero (bc : Blockchain) (minerAddress : GoString) (clk : Clock)
    (hd : bc.Difficulty = 0) (last : Block) (hlast : bc.Chain.getLast? = some last)
    (fuel : Nat) :
    MinePendingTransactions bc minerAddress clk (fuel + 1) = .ret
      { bc with
        Chain := bc.Chain ++
          [{ Index := Int.ofNat bc.Chain.length, Timestamp := clk.blockNow,
             Transactions := bc.PendingTransactions ++ [rewardTx bc minerAddress clk],
             PrevHash := last.Hash,
             Hash := calculateHash
               { Index := Int.ofNat bc.Chain.length, Timestamp := clk.blockNow,
                 Transactions := bc.PendingTransactions ++ [rewardTx bc minerAddress clk],
                 PrevHash := last.Hash, Hash := [], Nonce := 0 },
             Nonce := 0 }],
        PendingTransactions := [] } := by
  unfold MinePendingTransactions
  simp only
  rw [hlast]
  simp only
  rw [mineBlock_zero _ (by simpa using hd)]

/-- C23. On a ledger with `Difficulty` 0 and a non-empty chain,
`MinePendingTransactions` returns after the first iteration of the nonce
search (one iteration is enough, and any larger budget gives the same result):
it appends one block with `Nonce` 0, `Hash` equal to `calculateHash` of that
block and `PrevHash` equal to the `Hash` of the previous last block, and it
empties the pool. -/
theorem C23_difficulty_zero_mines_at_once (bc : Blockchain) (minerAddress : GoString)
    (clk : Clock) (hd : bc.Difficulty = 0) (hne : bc.Chain ≠ []) :
    ∃ last sealed : Block,
      bc.Chain.getLast? = some last ∧
      MinePendingTransactions bc minerAddress clk 1
        = .ret { bc with Chain := bc.Chain ++ [sealed], PendingTransactions := [] } ∧
      (∀ fuel : Nat, MinePendingTransactions bc minerAddress clk (fuel + 1)
        = .ret { bc with Chain := bc.Chain ++ [sealed], PendingTransactions := [] }) ∧
      sealed.Nonce = 0 ∧ sealed.Hash = calculateHash sealed ∧ sealed.PrevHash = last.Hash ∧
      sealed.Transactions = bc.PendingTransactions ++ [rewardTx bc minerAddress clk] := by
  obtain ⟨last, hlast⟩ : ∃ last, bc.Chain.getLast? = some last := by
    cases hc : bc.Chain.getLast? with
    | none => exact absurd (List.getLast?_eq_none_iff.1 hc) hne
    | some last => exact ⟨last, rfl⟩
  exact ⟨last, _, hlast, minePendingTransactions_zero bc minerAddress clk hd last hlast 0,
    fun fuel => minePendingTransactions_zero bc minerAddress clk hd last hlast fuel,
    rfl, rfl, rfl, rfl⟩

/-- C23 (witness). The scenario ledger of difficulty 0: one iteration of the
search and `MinePendingTransactions("miner1")` has returned `sealedLedger`. -/
theorem C23_difficulty_zero_mines_at_once_witness :
    (scenarioPool 0).Difficulty = 0 ∧ (scenarioPool 0).Chain ≠ [] ∧
    MinePendingTransactions (scenarioPool 0) (lit "miner1") scenarioClock 1 = .ret sealedLedger ∧
    ∃ last sealed : Block,
      (scenarioPool 0).Chain.getLast? = some last ∧
      MinePendingTransactions (scenarioPool 0) (lit "miner1") scenarioClock 1
        = .ret { scenarioPool 0 with
            Chain := (scenarioPool 0).Chain ++ [sealed], PendingTransactions := [] } ∧
      sealed.Nonce = 0 ∧ sealed.Hash = calculateHash sealed ∧ sealed.PrevHash = last.Hash :=
  have hne : (scenarioPool 0).Chain ≠ [] := by
    simp [scenarioPool, AddTransaction, NewBlockchain]
  have hw := C23_difficulty_zero_mines_at_once (scenarioPool 0) (lit "miner1") scenarioClock
    rfl hne
  ⟨rfl, hne, by decide!,
    hw.elim fun last hw1 => hw1.elim fun sealed hw2 =>
      ⟨last, sealed, hw2.1, hw2.2.1, hw2.2.2.2.1, hw2.2.2.2.2.1, hw2.2.2.2.2.2.1⟩⟩

end Core

namespace Controllers

open Core

theorem decodeString_length : ∀ (n : Nat) (s : GoString) (sig : List UInt8), s.length ≤ n →
    DecodeString s = some sig → 2 * sig.length = s.length := by
  intro n
  induction n with
  | zero =>
    intro s sig hn h
    obtain rfl : s = [] := List.eq_nil_of_length_eq_zero (by omega)
    simp only [DecodeString, Option.some.injEq] at h
    subst h
    rfl
  | succ n ih =>
    intro s sig hn h
    match s, h with
    | [], h =>
      simp only [DecodeString, Option.some.injEq] at h
      subst h
      rfl
    | [_], h => simp [DecodeString] at h
    | p :: q :: rest, h =>
      rw [DecodeString] at h
      split at h
      · next a b _ _ =>
        cases hr : DecodeString rest with
        | none => simp [hr] at h
        | some t =>
          simp only [hr, Option.map_some', Option.some.injEq] at h
          subst h
          have := ih rest t (by simp only [List.length_cons] at hn; omega) hr
          simp only [List.length_cons]
          omega
      · cases h

/-- C24 (the code at the failing inputs). `verifySignature` returns false when
the signature is no valid hex; it panics at `sig[64]` when the signature is
valid hex that decodes to fewer than 65 bytes, that is, has fewer than 130
characters; the signature `"00"` decodes to one byte, so the call panics on it
for every address and message. -/
theorem C24_short_signature_panics :
    (∀ (lib : Crypto) (address message signature : GoString),
      DecodeString signature = none →
        verifySignature lib address message signature = .ret false) ∧
    (∀ (lib : Crypto) (address message signature : GoString) (sig : List UInt8),
      DecodeString signature = some sig → sig.length < 65 →
        verifySignature lib address message signature = .panic) ∧
    (∀ (lib : Crypto) (address message signature : GoString) (sig : List UInt8),
      DecodeString signature = some sig → signature.length < 130 →
        verifySignature lib address message signature = .panic) ∧
    DecodeString (lit "00") = some [0] ∧
    (∀ (lib : Crypto) (address message : GoString),
      verifySignature lib address message (lit "00") = .panic) ∧
    (∀ (lib : Crypto) (address message signature : GoString) (sig : List UInt8),
      DecodeString signature = some sig → 65 ≤ sig.length →
      (∀ m, (lib.Keccak256 m).length = 32) →
      (∀ hash s pubKey, lib.Ecrecover hash s = some pubKey → pubKey.length = 65) →
        ∃ b, verifySignature lib address message signature = .ret b) := by
  have hshort : ∀ (lib : Crypto) (address message signature : GoString) (sig : List UInt8),
      DecodeString signature = some sig → sig.length < 65 →
        verifySignature lib address message signature = .panic := by
    intro lib address message signature sig hdec hlen
    unfold verifySignature
    rw [hdec]
    simp only
    rw [List.getElem?_eq_none (by omega)]
  refine ⟨?_, hshort, ?_, by decide, ?_, ?_⟩
  · intro lib address message signature hdec
    unfold verifySignature
    rw [hdec]
  · intro lib address message signature sig hdec hlen
    have := decodeString_length signature.length signature sig (Nat.le_refl _) hdec
    exact hshort lib address message signature sig hdec (by omega)
  · intro lib address message
    exact hshort lib address message (lit "00") [0] (by decide) (by decide)
  · intro lib address message signature sig hdec hlen hk he
    unfold verifySignature
    rw [hdec]
    simp only
    rw [List.getElem?_eq_getElem (by omega)]
    simp only
    split
    · exact ⟨false, rfl⟩
    · next pubKey hrec =>
      have hp := he _ _ _ hrec
      rw [if_neg (by omega), if_neg (by rw [hk]; omega)]
      exact ⟨_, rfl⟩

end Controllers

namespace Main

open Core

/-- C25. On a node with a non-empty chain, `Node.AddTransaction` appends the
transaction at the end of the `Transactions` of the last block and changes
nothing else: the chain keeps its length, every other block is unchanged, and
the last block keeps its `Index`, `PreviousHash` and `Hash`. -/
theorem C25_toy_node_appends_to_last_block (node : Node) (tx : Transaction)
    (hne : node.Blockchain ≠ []) :
    ∃ (node1 : Node) (last last1 : Block),
      Node.AddTransaction node tx = some node1 ∧
      node.Blockchain.getLast? = some last ∧
      node1.Blockchain.getLast? = some last1 ∧
      last1.Transactions = last.Transactions ++ [tx] ∧
      last1.Index = last.Index ∧ last1.PreviousHash = last.PreviousHash ∧
      last1.Hash = last.Hash ∧
      node1.Blockchain.length = node.Blockchain.length ∧
      node1.Blockchain.dropLast = node.Blockchain.dropLast ∧
      (∀ i, i + 1 < node.Blockchain.length → node1.Blockchain[i]? = node.Blockchain[i]?) ∧
      node1.ID = node.ID := by
  have hpos : 0 < node.Blockchain.length := List.length_pos.2 hne
  have hlt : node.Blockchain.length - 1 < node.Blockchain.length := by omega
  have hget : node.Blockchain[node.Blockchain.length - 1]?
      = some node.Blockchain[node.Blockchain.length - 1] := List.getElem?_eq_getElem hlt
  obtain ⟨front, last, hsplit⟩ : ∃ front last, node.Blockchain = front ++ [last] :=
    ⟨node.Blockchain.dropLast, node.Blockchain.getLast hne,
      (List.dropLast_append_getLast hne).symm⟩
  have hlen : node.Blockchain.length - 1 = front.length := by
    rw [hsplit]; simp
  have hlastget : node.Blockchain[node.Blockchain.length - 1] = last := by
    have : node.Blockchain[node.Blockchain.length - 1]? = some last := by
      rw [hsplit]; simp
    rw [hget] at this
    exact Option.some.inj this
  refine ⟨{ node with Blockchain := (node.Blockchain.set (node.Blockchain.length - 1)
      { last with Transactions := last.Transactions ++ [tx] }) }, last,
    { last with Transactions := last.Transactions ++ [tx] }, ?_, ?_, ?_, rfl, rfl, rfl, rfl,
    ?_, ?_, ?_, rfl⟩
  · unfold Node.AddTransaction
    rw [if_neg (by omega), hget, hlastget]
  · rw [hsplit]; simp
  · simp only
    rw [hlen, hsplit]
    simp
  · simp
  · simp only
    rw [hlen, hsplit]
    simp
  · intro i hi
    simp only
    rw [List.getElem?_set_ne (by omega)]

/-- C25 (witness). The node `nodeA` of `SimulateNetwork`, two blocks long:
`AddTransaction(tx1)` extends block 1 and leaves the genesis block alone. -/
theorem C25_toy_node_appends_to_last_block_witness :
    nodeA.Blockchain ≠ [] ∧
    Node.AddTransaction nodeA tx1 = some
      { nodeA with Blockchain := [CreateGenesisBlock,
          { Index := 1, Transactions := [tx1, tx1], PreviousHash := lit "genesis_hash",
            Hash := lit "block_1_hash" }] } ∧
    ∃ (node1 : Node) (last last1 : Block),
      Node.AddTransaction nodeA tx1 = some node1 ∧
      nodeA.Blockchain.getLast? = some last ∧
      node1.Blockchain.getLast? = some last1 ∧
      last1.Transactions = last.Transactions ++ [tx1] :=
  have hne : nodeA.Blockchain ≠ [] := by decide
  have hw := C25_toy_node_appends_to_last_block nodeA tx1 hne
  ⟨hne, by decide,
    hw.elim fun node1 h1 => h1.elim fun last h2 => h2.elim fun last1 h3 =>
      ⟨node1, last, last1, h3.1, h3.2.1, h3.2.2.1, h3.2.2.2.1⟩⟩

end Main
